import Mathlib

/-!
# Verification of the VisualEditor document model and transaction engine

Shallow embedding of the core data model and algorithms of the ContentEditable
surface editor ("es" namespace) found in `src/build/all.js`:

* linear data array items (characters with annotation lists, element markers),
* the transaction model and its builder API (`es.TransactionModel`),
* the transaction processor in commit and rollback direction
  (`es.TransactionProcessor`),
* the model node tree (`es.DocumentModelNode` / `es.DocumentModelBranchNode`),
* offset translation, node selection, and the transaction-preparing
  algorithms of `es.DocumentModel`,
* the surface model's history machinery (`es.SurfaceModel`).

JavaScript objects are modelled as follows: an annotation object is identified
by its canonical content hash (the code compares annotations exclusively through
`es.DocumentModel.getHash`, a canonical serialization of type and data, so two
annotations are deep-equal exactly when their hashes agree); an attribute map is
an association list of key/value pairs (`value` as a string stands for the
arbitrary JSON value); a document data item is either an annotated character or
an element marker `{type, attributes?}` (closing markers are markers whose type
starts with "/", exactly as in the linear array).
-/

namespace VE

/-- An annotation object, identified by its canonical content hash
(`es.DocumentModel.getHash`, all.js:3889). -/
structure Ann where
  hash : String
deriving DecidableEq, Repr

/-- One slot of the linear data array (all.js data model):
either a character together with the ordered list of annotation objects
covering it (a plain character is one with no annotations; the code collapses
singleton arrays back to bare strings, which this representation performs
automatically), or an element marker `{type, attributes?}`.  A closing marker
is an element marker whose tag starts with "/". -/
inductive Item where
  | char (c : Char) (anns : List Ann)
  | elem (tag : String) (attrs : Option (List (String × String)))
deriving DecidableEq, Repr

namespace Item

/-- `data[i].type !== undefined`: the item is an element marker. -/
def isElement : Item → Bool
  | char _ _ => false
  | elem _ _ => true

end Item

/-- `es.DocumentModel.containsElementData` (all.js:4309). -/
def containsElementData (data : List Item) : Bool :=
  data.any Item.isElement

/-- A primitive operation of a transaction (`es.TransactionModel`,
all.js:5295-5425).  Methods and biases are strings in the source
("set"/"clear", "start"/"stop"); unrecognized values hit the `throw`
branches of the processor. -/
inductive Op where
  | retain (length : Nat)
  | insert (data : List Item)
  | remove (data : List Item)
  | attr (method : String) (key : String) (value : String)
  | annotate (method : String) (bias : String) (ann : Ann)
deriving DecidableEq, Repr

/-- `es.TransactionModel`: the ordered operation list plus the running
`lengthDifference` (net insert minus remove length, all.js:5295-5298). -/
structure TxModel where
  operations : List Op
  lengthDifference : Int
deriving DecidableEq, Repr

namespace TxModel

def empty : TxModel := ⟨[], 0⟩

/-- `es.TransactionModel.prototype.pushRetain` (all.js:5328):
coalesces with a trailing retain, otherwise appends. -/
def pushRetain (tx : TxModel) (length : Nat) : TxModel :=
  match tx.operations.getLast? with
  | some (Op.retain n) =>
      ⟨tx.operations.dropLast ++ [Op.retain (n + length)], tx.lengthDifference⟩
  | _ => ⟨tx.operations ++ [Op.retain length], tx.lengthDifference⟩

/-- `es.TransactionModel.prototype.pushInsert` (all.js:5346):
coalesces with a trailing insert (concatenating data), otherwise appends;
always adds the data length to `lengthDifference`. -/
def pushInsert (tx : TxModel) (data : List Item) : TxModel :=
  match tx.operations.getLast? with
  | some (Op.insert d) =>
      ⟨tx.operations.dropLast ++ [Op.insert (d ++ data)],
        tx.lengthDifference + data.length⟩
  | _ => ⟨tx.operations ++ [Op.insert data], tx.lengthDifference + data.length⟩

/-- `es.TransactionModel.prototype.pushRemove` (all.js:5365):
coalesces with a trailing remove, otherwise appends; always subtracts the
data length from `lengthDifference`. -/
def pushRemove (tx : TxModel) (data : List Item) : TxModel :=
  match tx.operations.getLast? with
  | some (Op.remove d) =>
      ⟨tx.operations.dropLast ++ [Op.remove (d ++ data)],
        tx.lengthDifference - data.length⟩
  | _ => ⟨tx.operations ++ [Op.remove data], tx.lengthDifference - data.length⟩

/-- `es.TransactionModel.prototype.pushChangeElementAttribute` (all.js:5386). -/
def pushChangeElementAttribute (tx : TxModel) (method key value : String) :
    TxModel :=
  ⟨tx.operations ++ [Op.attr method key value], tx.lengthDifference⟩

/-- `es.TransactionModel.prototype.pushStartAnnotating` (all.js:5402). -/
def pushStartAnnotating (tx : TxModel) (method : String) (a : Ann) : TxModel :=
  ⟨tx.operations ++ [Op.annotate method "start" a], tx.lengthDifference⟩

/-- `es.TransactionModel.prototype.pushStopAnnotating` (all.js:5418). -/
def pushStopAnnotating (tx : TxModel) (method : String) (a : Ann) : TxModel :=
  ⟨tx.operations ++ [Op.annotate method "stop" a], tx.lengthDifference⟩

end TxModel

/-- A builder call, used to quantify over arbitrary sequences of
`es.TransactionModel` builder-API invocations. -/
inductive BuilderCall where
  | retain (length : Nat)
  | insert (data : List Item)
  | remove (data : List Item)
  | changeAttr (method key value : String)
  | startAnn (method : String) (a : Ann)
  | stopAnn (method : String) (a : Ann)
deriving DecidableEq, Repr

/-- Run one builder call against a transaction being built. -/
def applyCall (tx : TxModel) : BuilderCall → TxModel
  | .retain n => tx.pushRetain n
  | .insert d => tx.pushInsert d
  | .remove d => tx.pushRemove d
  | .changeAttr m k v => tx.pushChangeElementAttribute m k v
  | .startAnn m a => tx.pushStartAnnotating m a
  | .stopAnn m a => tx.pushStopAnnotating m a

/-- Run a sequence of builder calls starting from the empty transaction. -/
def buildTx (calls : List BuilderCall) : TxModel :=
  calls.foldl applyCall TxModel.empty

/-- Total length of data pushed through `pushInsert` in a call sequence. -/
def insertTotal (calls : List BuilderCall) : Int :=
  (calls.map fun c => match c with
    | .insert d => (d.length : Int)
    | _ => 0).sum

/-- Total length of data pushed through `pushRemove` in a call sequence. -/
def removeTotal (calls : List BuilderCall) : Int :=
  (calls.map fun c => match c with
    | .remove d => (d.length : Int)
    | _ => 0).sum

/-! ## Equality up to annotation order

JavaScript deep equality on the linear array is order-sensitive for the
annotation arrays attached to characters, and key-order-insensitive for
attribute objects; the `Item` representation mirrors this (annotation lists
are arrays, attribute maps are association lists modelling objects).
`itemEquiv` additionally identifies items that differ only in the *order* of
their annotation lists — the sense in which commit followed by rollback
restores the document. -/

/-- Attribute maps of two element markers denote the same JavaScript object
(equal as key-value multisets; `none` is an absent `attributes` property). -/
def attrsEquiv : Option (List (String × String)) →
    Option (List (String × String)) → Prop
  | none, none => True
  | some l₁, some l₂ => (l₁ : Multiset (String × String)) = (l₂ : Multiset (String × String))
  | _, _ => False

/-- Items equal up to the order of a character's annotation list. -/
def itemEquiv : Item → Item → Prop
  | .char c₁ a₁, .char c₂ a₂ => c₁ = c₂ ∧ (a₁ : Multiset Ann) = (a₂ : Multiset Ann)
  | .elem t₁ at₁, .elem t₂ at₂ => t₁ = t₂ ∧ attrsEquiv at₁ at₂
  | _, _ => False

/-- Pointwise `itemEquiv` over two data arrays. -/
def dataEquiv (d₁ d₂ : List Item) : Prop :=
  List.Forall₂ itemEquiv d₁ d₂

/-- `type.charAt(0) === '/'` (all.js:3825, 4598): the marker is a closing
tag.  Stated on the string's character list so that concrete instances
evaluate. -/
def isClosingType (t : String) : Bool :=
  match t.data with
  | '/' :: _ => true
  | _ => false

/-! ## The model node tree

`es.DocumentModelNode` stores a symbolic `type` and a `contentLength`;
`getElementLength` is always `contentLength + 2` (all.js:2069).  Branch nodes
additionally hold an ordered child list (`es.DocumentModelBranchNode`); their
stored `contentLength` is maintained incrementally by the collection mutators.
Nodes are modelled as values; parent/root back-references become tree paths
where needed.  The `element` back-pointer (attributes holder) plays no role in
any claim under verification and is omitted from the node value. -/

inductive MNode where
  | leaf (ty : String) (len : Nat)
  | branch (ty : String) (len : Nat) (children : List MNode)

namespace MNode

/-- `es.DocumentModelNode.prototype.getContentLength` (all.js:2058): the
stored content length (branch nodes store the running sum maintained by the
mutators). -/
def getContentLength : MNode → Nat
  | leaf _ n => n
  | branch _ n _ => n

/-- `es.DocumentModelNode.prototype.getElementLength` (all.js:2069):
`contentLength + 2`. -/
def getElementLength (n : MNode) : Nat :=
  n.getContentLength + 2

/-- `es.DocumentNode.prototype.hasChildren`, specialized per class
(all.js:2312, 2733). -/
def hasChildren : MNode → Bool
  | leaf _ _ => false
  | branch _ _ _ => true

def typeOf : MNode → String
  | leaf t _ => t
  | branch t _ _ => t

end MNode

/-- The node-model registry `es.DocumentModel.nodeModels`
(all.js:5012-5278): registered element types, and whether the registered
class is a leaf (`es.DocumentModelLeafNode`) or a branch
(`es.DocumentModelBranchNode`). -/
def nodeModels (ty : String) : Option Bool :=
  if ty = "paragraph" ∨ ty = "pre" ∨ ty = "heading" then some true
  else if ty = "list" ∨ ty = "listItem" ∨ ty = "table" ∨ ty = "tableRow" ∨
      ty = "tableCell" then some false
  else none

/-- A node under construction in `createNodesFromData`: its type, leafness,
running content length and closed children. -/
structure BuildFrame where
  ty : String
  isLeaf : Bool
  len : Nat
  children : List MNode

/-- Package a finished frame as a node. -/
def closeFrame (f : BuildFrame) : MNode :=
  if f.isLeaf then .leaf f.ty f.len else .branch f.ty f.len f.children

/-- `es.DocumentModel.createNodesFromData` (all.js:3818), with the mutable
`currentNode` chain rendered as the current frame plus a stack of open
ancestor frames.  An opening marker with an unregistered type throws
(*Unsupported element*), as does opening inside a leaf (leaf classes have no
`push`); a closing marker at the top level leaves `currentNode` as `null`,
which crashes either on the next operation or at the final `getChildren()`.
A run of content items sets the current node's content length to the run
length (`setContentLength`, an overwrite); the eager parent-chain length
propagation of `adjustContentLength` is equivalent to adding
`child.getElementLength()` to the parent when the child closes, which is how
the stack renders it. -/
def buildGo : List Item → BuildFrame → List BuildFrame → Option (List MNode)
  | [], cur, _ => some cur.children
  | Item.elem t _ :: restItems, cur, stack =>
      if isClosingType t then
        match stack with
        | [] => none
        | parent :: stack' =>
            let child := closeFrame cur
            buildGo restItems
              ⟨parent.ty, parent.isLeaf,
                parent.len + child.getElementLength,
                parent.children ++ [child]⟩ stack'
      else
        match nodeModels t with
        | none => none
        | some isLf =>
            if cur.isLeaf then none
            else buildGo restItems ⟨t, isLf, 0, []⟩ (cur :: stack)
  | Item.char _ _ :: restItems, cur, stack =>
      buildGo (restItems.dropWhile fun it => !it.isElement)
        ⟨cur.ty, cur.isLeaf,
          1 + (restItems.takeWhile fun it => !it.isElement).length,
          cur.children⟩ stack
termination_by items _ _ => items.length
decreasing_by
  · simp only [List.length_cons]
    omega
  · simp only [List.length_cons]
    omega
  · simp only [List.length_cons]
    have : (restItems.dropWhile fun it => !it.isElement).length ≤
        restItems.length := by
      induction restItems with
      | nil => simp
      | cons x xs ih =>
          rw [List.dropWhile_cons]
          split
          · exact le_trans ih (by simp)
          · simp
    omega

/-- `es.DocumentModel.createNodesFromData` (all.js:3818): parse a linear data
array into a list of model nodes, starting from an anonymous temporary branch
node (`new es.DocumentModelBranchNode()`) whose children are returned. -/
def createNodesFromData (data : List Item) : Option (List MNode) :=
  buildGo data ⟨"", false, 0, []⟩ []

/-! ## Offset classification and offset/node translation -/

/-- `es.DocumentModel.isStructuralOffset` (all.js:4286): edges are structural;
an interior offset is structural when element markers sit on both sides,
unless they are a matching open/close pair (the inside of an empty element).
The code indexes `data[offset-1]` and `data[offset]` directly (in-bounds by
every caller); out-of-bounds reads are rendered as the non-element case. -/
def isStructuralOffset (data : List Item) (offset : Nat) : Bool :=
  if offset = 0 ∨ offset = data.length then true
  else
    match data.get? (offset - 1), data.get? offset with
    | some (Item.elem t₁ _), some (Item.elem t₂ _) =>
        if "/" ++ t₁ = t₂ then false else true
    | _, _ => false

/-- The children of a node (leaves have none). -/
def MNode.childrenOf : MNode → List MNode
  | .leaf _ _ => []
  | .branch _ _ cs => cs

/-- `es.DocumentBranchNode.prototype.getNodeFromOffset` (all.js:2514) and its
child loop, with node references rendered as child-index paths from the node
the query starts at (`some []` is the node itself, `some (i :: p)` descends
into child `i`, `none` is the `null` not-found result).  The source's
recursive call passes no `shallow` argument, so recursion below the first
level is always deep, exactly as here. -/
def getNodeFromOffset (n : MNode) (offset : Nat) (shallow : Bool) :
    Option (List Nat) :=
  if offset = 0 then some []
  else
    match n with
    | .leaf _ _ => none
    | .branch _ _ cs =>
        if cs.length = 0 then none
        else gnfoGo cs offset shallow 0 0
where
  /-- The `for` loop (all.js:2523-2544): `nodeOffset` is the accumulated
  offset, `idx` the child index; after the loop a final
  `offset == nodeOffset` check returns the node itself. -/
  gnfoGo : List MNode → Nat → Bool → Nat → Nat → Option (List Nat)
  | [], offset, _, _, nodeOffset =>
      if offset = nodeOffset then some [] else none
  | child :: restCs, offset, shallow, idx, nodeOffset =>
      if offset = nodeOffset then some []
      else
        let nodeLength := child.getElementLength
        if nodeOffset ≤ offset ∧ offset < nodeOffset + nodeLength then
          if !shallow ∧ child.hasChildren ∧ child.childrenOf.length ≠ 0 then
            (getNodeFromOffset child (offset - nodeOffset - 1) false).map
              (fun p => idx :: p)
          else some [idx]
        else gnfoGo restCs offset shallow (idx + 1) (nodeOffset + nodeLength)

/-- `es.DocumentBranchNode.prototype.getOffsetFromNode` (all.js:2477), with
the target node given as a child-index path (an invalid path is the `-1`
not-found result).  A direct child at index `i` sits at the sum of its left
siblings' element lengths; a deeper node adds 1 for the child's opening
marker, matching `offset + 1 + childOffset`. -/
def getOffsetFromNode (n : MNode) : List Nat → Option Nat
  | [] => some 0
  | i :: p =>
      match n with
      | .leaf _ _ => none
      | .branch _ _ cs =>
          if h : i < cs.length then
            match p with
            | [] => some (((cs.take i).map MNode.getElementLength).sum)
            | _ =>
                (getOffsetFromNode (cs.get ⟨i, h⟩) p).map
                  (fun o => ((cs.take i).map MNode.getElementLength).sum + 1 + o)
          else none

/-- A path addresses an actual node of the tree. -/
def validPath : MNode → List Nat → Bool
  | _, [] => true
  | .leaf _ _, _ :: _ => false
  | .branch _ _ cs, i :: p =>
      if h : i < cs.length then validPath (cs.get ⟨i, h⟩) p else false

/-- The node a path addresses. -/
def nodeAt : MNode → List Nat → Option MNode
  | n, [] => some n
  | .leaf _ _, _ :: _ => none
  | .branch _ _ cs, i :: p =>
      if h : i < cs.length then nodeAt (cs.get ⟨i, h⟩) p else none

/-- The tree-length invariant (spec section 8, "Length invariant"): a branch
node's stored content length equals the sum of its children's element
lengths, recursively over the whole tree; leaf nodes store their content
length directly. -/
def wellSized : MNode → Bool
  | .leaf _ _ => true
  | .branch _ len cs =>
      (len == (cs.map MNode.getElementLength).sum) &&
      cs.attach.all fun c => wellSized c.1
decreasing_by
  simp_wf
  have := List.sizeOf_lt_of_mem c.2
  omega

/-- `es.DocumentModelBranchNode.prototype.push` (all.js:2793): attach the
child at the end and adjust this node's content length by the child's element
length (`adjustContentLength(childModel.getElementLength(), true)`); in this
value-based rendering the parent chain sees the change when the parent node is
rebuilt around the new value.  The method exists only on branch classes, so a
leaf value is returned unchanged. -/
def MNode.push : MNode → MNode → MNode
  | .branch ty len cs, childModel =>
      .branch ty (len + childModel.getElementLength) (cs ++ [childModel])
  | .leaf t l, _ => .leaf t l

/-- `es.DocumentModelBranchNode.prototype.unshift` (all.js:2814). -/
def MNode.unshift : MNode → MNode → MNode
  | .branch ty len cs, childModel =>
      .branch ty (len + childModel.getElementLength) (childModel :: cs)
  | .leaf t l, _ => .leaf t l

/-- `es.DocumentModelBranchNode.prototype.pop` (all.js:2834): no-op on a
childless node; otherwise detach the last child and adjust the content length
by minus its element length (`adjustContentLength` throws, here `none`, if
the result would be negative — impossible on a well-sized node). -/
def MNode.pop : MNode → Option MNode
  | .branch ty len cs =>
      match cs.getLast? with
      | none => some (.branch ty len cs)
      | some last =>
          if last.getElementLength ≤ len then
            some (.branch ty (len - last.getElementLength) cs.dropLast)
          else none
  | .leaf t l => some (.leaf t l)

/-- `es.DocumentModelBranchNode.prototype.shift` (all.js:2857). -/
def MNode.shift : MNode → Option MNode
  | .branch ty len cs =>
      match cs with
      | [] => some (.branch ty len [])
      | first :: rest =>
          if first.getElementLength ≤ len then
            some (.branch ty (len - first.getElementLength) rest)
          else none
  | .leaf t l => some (.leaf t l)

/-- `es.DocumentModelBranchNode.prototype.splice` (all.js:2883): replace
`howmany` children at `index` by `news`, adjusting the content length by the
net element-length difference (`diff`); `adjustContentLength` throws (`none`)
if the result would be negative. -/
def MNode.splice : MNode → Nat → Nat → List MNode → Option MNode
  | .branch ty len cs, index, howmany, news =>
      let removals := (cs.drop index).take howmany
      let newLen : Int := (len : Int) + (news.map MNode.getElementLength).sum
        - (removals.map MNode.getElementLength).sum
      if 0 ≤ newLen then
        some (.branch ty newLen.toNat
          (cs.take index ++ news ++ cs.drop (index + howmany)))
      else none
  | .leaf t l, _, _, _ => some (.leaf t l)

/-- Structural well-formedness of a linear data array relative to the open
element being built (`curLeaf`: is the current node a leaf class) and the
stack of open ancestors: every opening is registered, elements open only
inside branch nodes, and content sits only inside leaf nodes.  This is the
shape every document produced by the flattening input boundary has, and it is
what makes `createNodesFromData`'s `setContentLength` (an overwrite) safe. -/
def structOk : List Item → Bool → List Bool → Bool
  | [], _, _ => true
  | Item.elem t _ :: rest, curLeaf, stack =>
      if isClosingType t then
        match stack with
        | [] => false
        | p :: st => structOk rest p st
      else
        match nodeModels t with
        | none => false
        | some isLf => !curLeaf && structOk rest isLf (curLeaf :: stack)
  | Item.char _ _ :: rest, curLeaf, stack =>
      curLeaf && structOk (rest.dropWhile fun it => !it.isElement) curLeaf stack
termination_by items _ _ => items.length
decreasing_by
  · simp only [List.length_cons]
    omega
  · simp only [List.length_cons]
    omega
  · simp only [List.length_cons]
    have : (rest.dropWhile fun it => !it.isElement).length ≤ rest.length := by
      induction rest with
      | nil => simp
      | cons x xs ih =>
          rw [List.dropWhile_cons]
          split
          · exact le_trans ih (by simp)
          · simp
    omega

/-- Invariant of a frame during `createNodesFromData`: closed children are
well-sized, and a branch frame's running length is the sum of its closed
children's element lengths. -/
def frameOk (f : BuildFrame) : Prop :=
  (∀ c ∈ f.children, wellSized c = true) ∧
  (f.isLeaf = false → f.len = (f.children.map MNode.getElementLength).sum)

/-- `es.Range` (all.js:486): a from/to pair whose `normalize` populates
`start`/`end` with the sorted endpoints; here `start`/`endPos` are derived,
which makes `normalize` the identity on the value. -/
structure ESRange where
  rfrom : Int
  rto : Int
deriving DecidableEq, Repr

/-- Normalized starting offset (`range.start`). -/
def ESRange.start (r : ESRange) : Int := min r.rfrom r.rto

/-- Normalized ending offset (`range.end`). -/
def ESRange.endPos (r : ESRange) : Int := max r.rfrom r.rto

/-- `es.Range.prototype.getLength` (all.js:534). -/
def ESRange.getLength (r : ESRange) : Int := |r.rfrom - r.rto|

/-- One element of `selectNodes`' result (all.js:2576): the touched node
(as a path from the node the query started at), the sub-range within it when
it is only partially covered, and the global range. -/
structure SNEntry where
  path : List Nat
  range : Option (Int × Int)
  globalRange : Int × Int
deriving DecidableEq, Repr

mutual

/-- `es.DocumentBranchNode.prototype.selectNodes` (all.js:2580) on a
normalized range `[start, endo)`, with `offset` the global offset of this
node's content start and `pfx` the path of this node.  A leaf value has no
`selectNodes` (and no `children` array), so applying it to one is the crash
case `none`; the childless-branch special case returns the range itself
after the bounds check. -/
def selectNodesGo (n : MNode) (start endo : Int) (shallow : Bool)
    (offset : Int) (pfx : List Nat) : Option (List SNEntry) :=
  if start < 0 then none
  else
    match n with
    | .leaf _ _ => none
    | .branch _ _ cs =>
        if cs.length = 0 then
          if endo > (n.getContentLength : Int) then none
          else some [⟨pfx, some (start, endo), (start + offset, endo + offset)⟩]
        else selectNodesLoop cs start endo shallow offset pfx 0 1 []

/-- The child loop of `selectNodes` (all.js:2613-2701): `idx` is the current
child index, `left` the first offset inside the current child, `acc` the
entries collected so far.  Falling off the loop is the out-of-bounds `throw`
(all.js:2705-2709). -/
def selectNodesLoop (cs : List MNode) (start endo : Int) (shallow : Bool)
    (offset : Int) (pfx : List Nat) (idx : Nat) (left : Int)
    (acc : List SNEntry) : Option (List SNEntry) :=
  match cs with
  | [] => none
  | childNode :: rest =>
      let right := left + childNode.getContentLength
      if start = endo ∧ (start = left - 1 ∨ start = right + 1) then
        some [⟨pfx, some (start, endo), (start + offset, endo + offset)⟩]
      else
        let startInside := left ≤ start ∧ start ≤ right
        let endInside := left ≤ endo ∧ endo ≤ right
        if startInside ∧ endInside then
          if shallow ∨ ¬childNode.hasChildren then
            some [⟨pfx ++ [idx], some (start - left, endo - left),
              (start + offset, endo + offset)⟩]
          else
            selectNodesGo childNode (start - left) (endo - left) false
              (left + offset) (pfx ++ [idx])
        else if startInside then
          (if shallow ∨ ¬childNode.hasChildren then
            some (acc ++ [⟨pfx ++ [idx], some (start - left, right - left),
              (start + offset, right + offset)⟩])
          else
            (selectNodesGo childNode (start - left) (right - left) false
              (left + offset) (pfx ++ [idx])).map (acc ++ ·)).bind
            (fun acc' =>
              if endo < right + 2 then some acc'
              else selectNodesLoop rest start endo shallow offset pfx
                (idx + 1) (right + 2) acc')
        else if endInside then
          if shallow ∨ ¬childNode.hasChildren then
            some (acc ++ [⟨pfx ++ [idx], some (0, endo - left),
              (left + offset, endo + offset)⟩])
          else
            (selectNodesGo childNode 0 (endo - left) false (left + offset)
              (pfx ++ [idx])).map (acc ++ ·)
        else if endo = right + 1 then
          some (acc ++ [⟨pfx ++ [idx], none,
            (left - 1 + offset, right + 1 + offset)⟩])
        else
          let acc' :=
            if start = left - 1 then
              acc ++ [⟨pfx ++ [idx], none, (left - 1 + offset, right + 1 + offset)⟩]
            else if acc.length > 0 then
              acc ++ [⟨pfx ++ [idx], none, (left - 1 + offset, right + 1 + offset)⟩]
            else acc
          if endo < right + 2 then some acc'
          else selectNodesLoop rest start endo shallow offset pfx (idx + 1)
            (right + 2) acc'

end

/-- `selectNodes(range, shallow)` on a node: normalize and run. -/
def selectNodes (n : MNode) (r : ESRange) (shallow : Bool) :
    Option (List SNEntry) :=
  selectNodesGo n r.start r.endPos shallow 0 []

/-! ## prepareInsertion (`es.DocumentModel.prototype.prepareInsertion`,
all.js:4586) -/

/-- The inner `balance` function (all.js:4592): walk the data keeping a stack
of open element types; an unopened closing is dropped, a closing that does
not match the innermost opening throws, and unclosed openings are closed at
the end (innermost first). -/
def balance : List Item → List String → Option (List Item)
  | [], stack => some (stack.map fun t => Item.elem ("/" ++ t) none)
  | Item.elem t attrs :: rest, stack =>
      if isClosingType t then
        match stack with
        | [] => balance rest []
        | top :: stack' =>
            if top = (t.drop 1) then
              (balance rest stack').map (Item.elem t attrs :: ·)
            else none
      else (balance rest (t :: stack)).map (Item.elem t attrs :: ·)
  | it :: rest, stack => (balance rest stack).map (it :: ·)

/-- `es.DocumentModel.prototype.prepareInsertion` (all.js:4586): validate the
offset, classify it as structural or content, balance structural input
starting with an opening marker (splitting the wrapping element when inserting
structure at a content offset), auto-wrap pure content inserted at a
structural offset in a paragraph, then build
`retain(offset)?, insert(data), retain(rest)?`.  The document is passed as
its linear data plus its node tree (used only to find the wrapping element's
type). -/
def prepareInsertion (docData : List Item) (root : MNode) (offset : Int)
    (d : List Item) : Option TxModel :=
  if offset < 0 ∨ offset > docData.length then none
  else
    let off : Nat := offset.toNat
    let isStructuralLoc := isStructuralOffset docData off
    let tx₁ := if 0 < off then TxModel.empty.pushRetain off else TxModel.empty
    (if containsElementData d then
      if (match d.head? with
          | some (Item.elem t _) => !(isClosingType t)
          | _ => false) then
        (balance d []).bind fun bd =>
          if !isStructuralLoc then
            match getNodeFromOffset root off false with
            | none => none
            | some p =>
              match nodeAt root p with
              | none => none
              | some n =>
                  some (Item.elem ("/" ++ n.typeOf) none ::
                    (bd ++ [Item.elem n.typeOf none]))
          else some bd
      else some d
    else
      if isStructuralLoc then
        some (Item.elem "paragraph" none :: (d ++ [Item.elem "/paragraph" none]))
      else some d).map fun insertedData =>
      let tx₂ := tx₁.pushInsert insertedData
      if offset < docData.length then tx₂.pushRetain (docData.length - off)
      else tx₂

/-! ## prepareRemoval (`es.DocumentModel.prototype.prepareRemoval`,
all.js:4745) -/

/-- Length of the longest common prefix of two child-index paths.  Two nodes
of the same tree are the same JS object exactly when their paths coincide, so
the simultaneous upward walk of `es.DocumentNode.getCommonAncestorPaths`
(all.js:1974) first meets at the longest common prefix. -/
def commonPrefixLen : List Nat → List Nat → Nat
  | a :: as, b :: bs => if a = b then commonPrefixLen as bs + 1 else 0
  | _, _ => 0

/-- The inner `canMerge` of `prepareRemoval` (all.js:4753):
`getCommonAncestorPaths` succeeds exactly for two nodes of equal depth (the
simultaneous walk hits a `null` parent otherwise), and then every pair of
nodes on the two upward paths below the common ancestor must have equal
element types. -/
def canMerge (root : MNode) (p1 p2 : List Nat) : Bool :=
  if p1.length = p2.length then
    (List.range (p1.length - commonPrefixLen p1 p2)).all fun i =>
      match nodeAt root (p1.take (p1.length - i)),
          nodeAt root (p2.take (p2.length - i)) with
      | some a, some b => a.typeOf = b.typeOf
      | _, _ => false
  else false

/-- One iteration of `prepareRemoval`'s per-node loop (all.js:4799-4817):
retain the gap up to the entry's global range, remove the slice of the data
covered by it when non-empty, and move the running index to its end. -/
def removalStep (docData : List Item) (st : TxModel × Int) (e : SNEntry) :
    TxModel × Int :=
  let tx₁ := if e.globalRange.1 > st.2 then
    st.1.pushRetain (e.globalRange.1 - st.2).toNat else st.1
  let tx₂ := if |e.globalRange.1 - e.globalRange.2| ≠ 0 then
    tx₁.pushRemove ((docData.drop e.globalRange.1.toNat).take
      (e.globalRange.2 - e.globalRange.1).toNat) else tx₁
  (tx₂, e.globalRange.2)

/-- `prepareRemoval`'s non-mergeable branch (all.js:4798-4823): fold the
per-node loop over the selected entries, then retain to the end of the
document. -/
def removalFold (docData : List Item) (entries : List SNEntry) : TxModel :=
  let st := entries.foldl (removalStep docData) (TxModel.empty, 0)
  if st.2 < (docData.length : Int) then
    st.1.pushRetain ((docData.length : Int) - st.2).toNat
  else st.1

/-- `es.DocumentModel.prototype.prepareRemoval` (all.js:4745): an empty range
retains the whole document; otherwise select the touched nodes (a throw there
propagates), and either remove the whole range at once when the first and
last nodes can merge, or remove per-node. -/
def prepareRemoval (docData : List Item) (root : MNode) (r : ESRange) :
    Option TxModel :=
  if r.start = r.endPos then
    some (TxModel.empty.pushRetain docData.length)
  else
    (selectNodes root r false).map fun entries =>
      let mergeable :=
        match entries.head?, entries.getLast? with
        | some first, some last => canMerge root first.path last.path
        | _, _ => false
      if mergeable then
        let tx₁ := if r.start > 0 then TxModel.empty.pushRetain r.start.toNat
          else TxModel.empty
        let tx₂ := tx₁.pushRemove ((docData.drop r.start.toNat).take
          (r.endPos - r.start).toNat)
        if r.endPos < (docData.length : Int) then
          tx₂.pushRetain ((docData.length : Int) - r.endPos).toNat
        else tx₂
      else removalFold docData entries

/-! ## The merge validation of `es.TransactionProcessor.prototype.remove`
(all.js:870-985)

Removing element-containing data is not a plain splice: before touching the
array, `remove` selects the nodes covered by the removal range on the model
tree (kept in sync with the data throughout a transaction), finds the first
and last nodes of which a part is kept, and walks both nodes' ancestor paths
simultaneously to their common ancestor, throwing when no common ancestor
exists at equal depth, when corresponding ancestors have different element
types, or when the rebuild scan cannot find the last kept node's ancestor
after the first's among the common ancestor's children.  Only then does it
splice the data.  Element-free removals take the shortcut branch
(all.js:973-984), a plain splice. -/

/-- The document model's root node as built over a data array
(`es.DocumentModel`, all.js:3750-3759): a `document` branch whose children
come from `createNodesFromData` (the processor's tree-resync keeps the model
equal to this rebuild of the current data). -/
def docRoot (data : List Item) : Option MNode :=
  (createNodesFromData data).map fun cs =>
    MNode.branch "document" ((cs.map MNode.getElementLength).sum) cs

/-- The rebuild scan of `remove` (all.js:948-965): with `prevN1`/`prevN2` the
ancestors of the first/last kept nodes directly below the common ancestor
(`p1.take (lcp+1)`, where `lcp` is the common-prefix length), nothing is
checked when `prevN1` is absent (the kept nodes coincide) or is the first
selected node; otherwise `indexOf` finds `prevN1` at its child index (node
identity is path identity on one tree) and the forward scan from there finds
`prevN2` exactly when its child index is larger. -/
def rebuildRangeOk (firstEntryPath : Option (List Nat)) (p1 p2 : List Nat) :
    Bool :=
  let lcp := commonPrefixLen p1 p2
  if lcp < p1.length then
    if firstEntryPath = some (p1.take (lcp + 1)) then true
    else
      match p1.get? lcp, p2.get? lcp with
      | some i1, some i2 => decide (i1 < i2)
      | _, _ => false
  else true

/-- The throw-free condition of `es.TransactionProcessor.prototype.remove`
(all.js:870-985) for removing `d` at `cursor` from the document `fullData`:
element-free data takes the shortcut splice (always safe); element-containing
data requires `selectNodes` on the synced model to succeed, and, when some
node is kept only partially, the first and last kept nodes must pass the
`getCommonAncestorPaths` merge validation (common ancestor at equal depth and
equal element types level by level, all.js:930-941) and the rebuild scan. -/
def removeOk (fullData : List Item) (cursor : Nat) (d : List Item) : Bool :=
  if containsElementData d then
    match docRoot fullData with
    | none => false
    | some root =>
        match selectNodes root ⟨(cursor : Int), (cursor : Int) + d.length⟩
            false with
        | none => false
        | some entries =>
            match (entries.filter fun e => e.range.isSome).head?,
                (entries.filter fun e => e.range.isSome).getLast? with
            | some fk, some lk =>
                canMerge root fk.path lk.path &&
                rebuildRangeOk (entries.head?.map SNEntry.path) fk.path lk.path
            | _, _ => true
  else true

/-- Structural shape of an item: characters are interchangeable for the node
tree and for `removeOk` (only their count matters), element markers must
carry the same tag. -/
def itemShape : Item → Item → Prop
  | .char _ _, .char _ _ => True
  | .elem t₁ _, .elem t₂ _ => t₁ = t₂
  | _, _ => False

/-- Pointwise `itemShape` over two data arrays: same length, same marker
skeleton.  `applyAnns` never changes the shape, so the mid-rollback document
has the shape of the original prefix followed by the committed suffix. -/
def dataShape (d₁ d₂ : List Item) : Prop :=
  List.Forall₂ itemShape d₁ d₂

/-! ## Transaction processor (`es.TransactionProcessor`, all.js:572-1043)

The processor walks the operation list with a cursor into the linear data
array and two pending-annotation lists (`this.set`, `this.clear`).  Every
mutation it performs touches only offsets at or beyond the cursor, and the
cursor never decreases, so we embed the processor as a function consuming the
*suffix* of the array that starts at the cursor: the processed prefix is
emitted on the left of each recursive call.  Thrown errors become `none`.
`invert = false` is the `commit` direction, `invert = true` is `rollback`
(`es.TransactionProcessor.operationMap`, all.js:582-628: on rollback an
`insert` runs `remove`, a `remove` runs `insert`, and `attribute`/`annotate`
run with the `invert` flag set, which swaps set and clear). -/

/-- The annotation list of a content item (empty for element markers). -/
def Item.annsOf : Item → List Ann
  | char _ a => a
  | elem _ _ => []

/-- `es.TransactionProcessor.prototype.applyAnnotations` (all.js:739),
restricted to one item of the affected span: every pending `set` annotation is
appended (in list order), then every pending `clear` annotation removes its
first hash-match (`es.DocumentModel.getIndexOfAnnotation` + `splice`, which is
exactly `List.diff`); singleton arrays collapse back to bare characters, which
the `char`/`anns` representation performs silently.  Element markers are
returned unchanged: the code would corrupt an element here, and the validity
predicate below (like every transaction built by the `prepare*` family)
never applies pending annotations across an element marker. -/
def applyAnns (s c : List Ann) : Item → Item
  | .char ch a => .char ch ((a ++ s).diff c)
  | .elem t at₀ => .elem t at₀

/-- `element.attributes[key] = value` on an association list: overwrite in
place when the key exists, append otherwise. -/
def setKey : List (String × String) → String → String → List (String × String)
  | [], k, v => [(k, v)]
  | (k', v') :: t, k, v =>
      if k' = k then (k, v) :: t else (k', v') :: setKey t k v

/-- `delete element.attributes[key]` on an association list. -/
def eraseKey : List (String × String) → String → List (String × String)
  | [], _ => []
  | (k', v') :: t, k => if k' = k then t else (k', v') :: eraseKey t k

/-- `es.TransactionProcessor.prototype.attribute` (all.js:987), the part that
rewrites the element's attribute map.  `set` (or inverted `clear`)
auto-initializes the attributes object and stores the value; `clear` (or
inverted `set`) deletes the key and removes the attributes object entirely
when it becomes empty; any other method throws. -/
def applyAttrOp (invert : Bool) (m k v : String)
    (attrs : Option (List (String × String))) :
    Option (Option (List (String × String))) :=
  if (m = "set" && !invert) || (m = "clear" && invert) then
    some (some (setKey (attrs.getD []) k v))
  else if (m = "clear" && !invert) || (m = "set" && invert) then
    match attrs with
    | none => some none
    | some l =>
        let l' := eraseKey l k
        some (if l' = [] then none else some l')
  else
    none

/-- `es.TransactionProcessor.prototype.mark` (all.js:1020): select the pending
list by the method × invert truth table, push the annotation on a `start`
bias, pop its first hash-match on a `stop` bias (throwing when it is absent);
a bias that is neither `start` nor `stop` falls through silently. -/
def markStep (invert : Bool) (m bias : String) (a : Ann) (s c : List Ann) :
    Option (List Ann × List Ann) :=
  if (m = "set" && !invert) || (m = "clear" && invert) then
    if bias = "start" then some (s ++ [a], c)
    else if bias = "stop" then
      if a ∈ s then some (s.erase a, c) else none
    else some (s, c)
  else if (m = "clear" && !invert) || (m = "set" && invert) then
    if bias = "start" then some (s, c ++ [a])
    else if bias = "stop" then
      if a ∈ c then some (s, c.erase a) else none
    else some (s, c)
  else
    none

/-- `es.TransactionProcessor.prototype.process` (all.js:644) acting on the
array suffix that starts at the cursor, with `pre` the already-processed data
before the cursor (needed by `remove`'s merge validation, which looks at the
whole document) and pending lists `s` (`this.set`) and `c` (`this.clear`):

* `retain n` (all.js:818): apply pending annotations to the next `n` items
  and advance;
* `insert d` (all.js:823): all three insertion branches splice `op.data` into
  the array at the cursor, apply pending annotations to the inserted span, and
  advance the cursor past it; the remaining statements only resynchronize the
  node tree, and their `Invalid offset` throw (all.js:851) comes after the
  splice, so the array effect is the splice either way — unlike the remove
  merge throws, which happen before any mutation; on rollback the op is
  processed by the `remove` method and so runs the merge validation for
  element-containing data;
* `remove d` (all.js:870; on rollback this method runs for `insert` ops):
  element-free data takes the shortcut splice; element-containing data is
  spliced only after the merge validation (`removeOk` over the full current
  array, whence the threaded prefix `pre` of already-processed data) — the
  throws of all.js:930-965 are the `none` case; the cursor does not advance;
* `attribute` (all.js:987): rewrite the attribute map of the element marker at
  the cursor, throwing on a non-element;
* `annotate` (all.js:1020): update the pending lists. -/
def processOps (invert : Bool) :
    List Op → List Item → List Item → List Ann → List Ann → Option (List Item)
  | [], _, suffix, _, _ => some suffix
  | Op.retain n :: rest, pre, suffix, s, c =>
      (processOps invert rest (pre ++ (suffix.take n).map (applyAnns s c))
        (suffix.drop n) s c).map
        (fun out => (suffix.take n).map (applyAnns s c) ++ out)
  | Op.insert d :: rest, pre, suffix, s, c =>
      if invert then
        if removeOk (pre ++ suffix) pre.length d then
          processOps invert rest pre (suffix.drop d.length) s c
        else none
      else
        (processOps invert rest (pre ++ d.map (applyAnns s c)) suffix s c).map
          (fun out => d.map (applyAnns s c) ++ out)
  | Op.remove d :: rest, pre, suffix, s, c =>
      if invert then
        (processOps invert rest (pre ++ d.map (applyAnns s c)) suffix s c).map
          (fun out => d.map (applyAnns s c) ++ out)
      else
        if removeOk (pre ++ suffix) pre.length d then
          processOps invert rest pre (suffix.drop d.length) s c
        else none
  | Op.attr m k v :: rest, pre, suffix, s, c =>
      match suffix with
      | Item.elem tag attrs :: tail =>
          match applyAttrOp invert m k v attrs with
          | some attrs' =>
              processOps invert rest pre (Item.elem tag attrs' :: tail) s c
          | none => none
      | _ => none
  | Op.annotate m bias a :: rest, pre, suffix, s, c =>
      match markStep invert m bias a s c with
      | some (s', c') => processOps invert rest pre suffix s' c'
      | none => none

/-- `es.DocumentModel.prototype.commit` / `es.TransactionProcessor.commit`
(all.js:4933, 632), data-array effect. -/
def commitData (data : List Item) (tx : TxModel) : Option (List Item) :=
  processOps false tx.operations [] data [] []

/-- `es.DocumentModel.prototype.rollback` / `es.TransactionProcessor.rollback`
(all.js:4943, 637), data-array effect. -/
def rollbackData (data : List Item) (tx : TxModel) : Option (List Item) :=
  processOps true tx.operations [] data [] []

/-! ## Valid transactions

`commit` assumes its transaction was prepared against the current document
(the prepare functions validate everything up front; the processor recovers
from nothing, all.js:86 spec §7).  `validOps ops pre origPre suffix s c`
makes the
well-formedness conditions explicit, mirroring the commit pass:

* a `retain` stays within the document, and when pending annotations exist its
  span holds content items only (annotating an element marker would corrupt
  it) with every pending clear covered (multiset-wise) by the item's
  annotations plus the pending sets (`prepareContentAnnotation` only clears
  where the annotation is present, all.js:4864);
* `insert`/`remove` happen with no pending annotations (no prepare method
  emits an `annotate` around them), and a `remove` carries exactly the data
  currently in the array (`prepareRemoval` slices it out of the document,
  all.js:4792); a `remove` must pass the commit-side merge validation
  (`removeOk` on the document as committed so far, threaded through `pre`),
  and an `insert` the rollback-side one — rolling back processes the
  operations in the same order with insert mapped to the `remove` method, at
  which point the document consists of the restored original prefix (tracked
  shape-exactly by `origPre`), the inserted span, and the committed rest
  (`processOps` on the remaining operations);
* an `attribute` op happens with no pending annotations, targets an opening
  or closing element marker, sets only keys that are absent (with no empty
  attribute object present) and clears only a key whose current value is the
  operation's value (the transaction records the old value so that rollback
  can restore it), on a duplicate-free attribute map, and is followed either
  by nothing or by a positive retain (as built by
  `prepareElementAttributeChange`, all.js:4908: `retain offset?, attribute,
  retain rest`);
* an `annotate` op must not underflow the pending stack (all.js:1038). -/

/-- The item is a content item (a character slot). -/
def Item.isChar : Item → Bool
  | char _ _ => true
  | elem _ _ => false

/-- Per-item condition for retaining under pending annotations: the item is
content, and each pending clear is covered by the item's annotations plus the
pending sets (counted with multiplicity). -/
def retainItemOk (s c : List Ann) (it : Item) : Bool :=
  it.isChar && c.all fun a => c.count a ≤ (it.annsOf.count a + s.count a)

/-- Shape requirement after an `attribute` op: the element at the cursor must
still be there when rollback reaches this op, so the remaining operations
must leave the cursor item alone — nothing, or a retain that moves past it. -/
def afterAttrOk : List Op → Bool
  | [] => true
  | Op.retain n :: _ => decide (1 ≤ n)
  | _ => false

/-- Condition under which an `attribute` operation is invertible: `set` only
introduces a key that is absent (and no empty-but-present attribute object is
involved), `clear` removes a key whose current value is exactly the value
recorded in the operation, from a duplicate-free attribute map. -/
def attrCondOk (m k v : String) (attrs : Option (List (String × String))) :
    Bool :=
  if m = "set" then
    ((attrs.getD []).all fun p => p.1 ≠ k) && decide (attrs ≠ some [])
  else if m = "clear" then
    match attrs with
    | some l =>
        decide ((l.lookup k) = some v) && decide ((l.map Prod.fst).Nodup)
    | none => false
  else false

/-- Validity of an operation list against the array suffix at the cursor:
`pre` is the commit-processed data before the cursor, `origPre` the original
(pre-transaction) data consumed so far — the shape of the rolled-back prefix
when rollback reaches the same operation — and `s`, `c` the commit-direction
pending lists. -/
def validOps : List Op → List Item → List Item → List Item →
    List Ann → List Ann → Bool
  | [], _, _, _, _, _ => true
  | Op.retain n :: rest, pre, origPre, suffix, s, c =>
      decide (n ≤ suffix.length) &&
      ((s.isEmpty && c.isEmpty) || (suffix.take n).all (retainItemOk s c)) &&
      validOps rest (pre ++ (suffix.take n).map (applyAnns s c))
        (origPre ++ suffix.take n) (suffix.drop n) s c
  | Op.insert d :: rest, pre, origPre, suffix, s, c =>
      s.isEmpty && c.isEmpty &&
      (match processOps false rest (pre ++ d.map (applyAnns s c)) suffix
          s c with
        | some csuf =>
            removeOk (origPre ++ d.map (applyAnns s c) ++ csuf)
              origPre.length d
        | none => true) &&
      validOps rest (pre ++ d.map (applyAnns s c)) origPre suffix s c
  | Op.remove d :: rest, pre, origPre, suffix, s, c =>
      s.isEmpty && c.isEmpty && decide (suffix.take d.length = d) &&
      removeOk (pre ++ suffix) pre.length d &&
      validOps rest pre (origPre ++ d) (suffix.drop d.length) s c
  | Op.attr m k v :: rest, pre, origPre, suffix, s, c =>
      match suffix with
      | Item.elem tag attrs :: tail =>
          s.isEmpty && c.isEmpty && afterAttrOk rest && attrCondOk m k v attrs &&
          (match applyAttrOp false m k v attrs with
            | some attrs' =>
                validOps rest pre origPre (Item.elem tag attrs' :: tail) s c
            | none => false)
      | _ => false
  | Op.annotate m bias a :: rest, pre, origPre, suffix, s, c =>
      match markStep false m bias a s c with
      | some (s', c') => validOps rest pre origPre suffix s' c'
      | none => false

/-- A transaction valid against a document's data array. -/
def validTx (data : List Item) (tx : TxModel) : Bool :=
  validOps tx.operations [] [] data [] []

/-! ## prepareContentAnnotation
(`es.DocumentModel.prototype.prepareContentAnnotation`, all.js:4833) -/

/-- One iteration of the `prepareContentAnnotation` scan (all.js:4845-4888).
State: the transaction so far, the length of the pending retain span, and the
`on` flag (currently inside an annotating stretch).  Structural elements and
already-covered (for `set`) / already-clear (for `clear`) characters close an
open stretch; other characters open one.  `span` is reset to 0 inside a
branch and incremented after it, so a branch that pushed an operation leaves
`span = 1`. -/
def pcaStep (m : String) (a : Ann) (st : TxModel × Nat × Bool) (it : Item) :
    TxModel × Nat × Bool :=
  if it.isElement then
    if st.2.2 then
      let tx := if st.2.1 ≠ 0 then st.1.pushRetain st.2.1 else st.1
      (tx.pushStopAnnotating m a, 1, false)
    else (st.1, st.2.1 + 1, st.2.2)
  else
    let covered := it.annsOf.contains a
    if (covered ∧ m = "set") ∨ (¬covered = true ∧ m = "clear") then
      if st.2.2 then
        let tx := if st.2.1 ≠ 0 then st.1.pushRetain st.2.1 else st.1
        (tx.pushStopAnnotating m a, 1, false)
      else (st.1, st.2.1 + 1, st.2.2)
    else
      if ¬st.2.2 then
        let tx := if st.2.1 ≠ 0 then st.1.pushRetain st.2.1 else st.1
        (tx.pushStartAnnotating m a, 1, true)
      else (st.1, st.2.1 + 1, st.2.2)

/-- `es.DocumentModel.prototype.prepareContentAnnotation` (all.js:4833),
for annotation objects (the RegExp-pattern variant is not modeled).  The scan
starts with `span = range.start` so the leading retain is accumulated by the
same counter; after the loop any pending span is retained, an open stretch is
stopped, and the rest of the document is retained.  A non-empty range that
reaches outside the data array reads `undefined` slots and crashes
(`this.data[i].type`), which is the `none` case; the pathological negative
empty range (which in JS would push a negative retain) is folded into it. -/
def prepareContentAnn (docData : List Item) (r : ESRange) (m : String)
    (a : Ann) : Option TxModel :=
  if r.start < 0 ∨ (docData.length : Int) < r.endPos then none
  else
    let st := ((docData.drop r.start.toNat).take
      (r.endPos - r.start).toNat).foldl (pcaStep m a)
      (TxModel.empty, r.start.toNat, false)
    let tx := if st.2.1 ≠ 0 then st.1.pushRetain st.2.1 else st.1
    let tx := if st.2.2 then tx.pushStopAnnotating m a else tx
    some (if r.endPos < (docData.length : Int) then
      tx.pushRetain ((docData.length : Int) - r.endPos).toNat
    else tx)

/-! ## Document state and the frame of the prepare methods -/

/-- The mutable state of a document model: the linear data array
(`this.data`) and the node tree (`this.rootNode`, by its recursive length
structure). -/
structure DocState where
  data : List Item
  tree : MNode

/-- Reading `this.data` (a state-threaded primitive). -/
def readData (st : DocState) : List Item × DocState := (st.data, st)

/-- Reading `this.rootNode` (a state-threaded primitive). -/
def readTree (st : DocState) : MNode × DocState := (st.tree, st)

/-- `prepareInsertion` as it acts on the document state: every statement of
the method (all.js:4586-4721) either reads `this.data` / the node tree or
manipulates the locally created transaction and data copies, so the
translation threads the state through the reads and returns it. -/
def prepareInsertionSt (st : DocState) (offset : Int) (d : List Item) :
    Option TxModel × DocState :=
  let (dat, st₁) := readData st
  let (tr, st₂) := readTree st₁
  (prepareInsertion dat tr offset d, st₂)

/-- `prepareRemoval` on the document state: reads only (all.js:4745-4825). -/
def prepareRemovalSt (st : DocState) (r : ESRange) :
    Option TxModel × DocState :=
  let (dat, st₁) := readData st
  let (tr, st₂) := readTree st₁
  (prepareRemoval dat tr r, st₂)

/-- `prepareContentAnnotation` on the document state: reads only
(all.js:4833-4900; the method writes the annotation object's `hash` field and
the transaction, never the document). -/
def prepareContentAnnSt (st : DocState) (r : ESRange) (m : String) (a : Ann) :
    Option TxModel × DocState :=
  let (dat, st₁) := readData st
  (prepareContentAnn dat r m a, st₁)

/-- `es.DocumentModel.prototype.commit` on the document state: this is where
the data array actually changes (all.js:4933). -/
def commitSt (st : DocState) (tx : TxModel) : Option DocState :=
  (commitData st.data tx).map fun d => ⟨d, st.tree⟩

/-! ## SurfaceModel history (`es.SurfaceModel`, all.js:3592-3736) -/

/-- One breakpoint on the big undo stack (all.js:3692): the small stack of
transactions committed since the previous breakpoint and the selection at
breakpoint time. -/
structure BPItem where
  stack : List TxModel
  sel : ESRange
deriving DecidableEq, Repr

/-- The surface state: the document's linear data (the node tree resync is
not tracked here), the current selection, the small and big history stacks
and the undo index. -/
structure Surface where
  doc : List Item
  selection : ESRange
  smallStack : List TxModel
  bigStack : List BPItem
  undoIndex : Nat
deriving DecidableEq, Repr

/-- `es.SurfaceModel.prototype.breakpoint` (all.js:3690): if the small stack
is non-empty, push it with the given (or current) selection onto the big
stack and clear it. -/
def breakpointS (s : Surface) (selArg : Option ESRange) : Surface :=
  if s.smallStack.length > 0 then
    { s with
        bigStack := s.bigStack ++ [⟨s.smallStack, selArg.getD s.selection⟩],
        smallStack := [] }
  else s

/-- `es.SurfaceModel.prototype.select` with a falsy `isManual` (all.js:3656),
as called from `undo`: normalize (the identity on the from/to pair) and store
the selection. -/
def selectS (s : Surface) (sel : ESRange) : Surface :=
  { s with selection := sel }

/-- Rolling back a list of transactions in list order, stopping at the first
failure. -/
def rollbackSeq : List Item → List TxModel → Option (List Item)
  | data, [] => some data
  | data, tx :: rest => (rollbackData data tx).bind fun d => rollbackSeq d rest

/-- The downward loop of `undo` (all.js:3706-3709): with `i + 1` transactions
left to process, roll back `stack[i]` and add its `lengthDifference` to the
running `diff`. -/
def undoLoop (stack : List TxModel) : List Item → Int → Nat →
    Option (List Item × Int)
  | data, diff, 0 => some (data, diff)
  | data, diff, i + 1 =>
      match stack.get? i with
      | none => none
      | some tx => (rollbackData data tx).bind fun d =>
          undoLoop stack d (diff + tx.lengthDifference) i

/-- `es.SurfaceModel.prototype.undo` (all.js:3699): force a breakpoint,
increment the undo index, and if `bigStack[bigStack.length - undoIndex]`
exists, roll its stack back last-to-first, subtract the accumulated length
difference from the stored selection's endpoints (mutating the stored
breakpoint in place, hence the `List.set`) and select that selection. -/
def undoS (s : Surface) : Option Surface :=
  let s₁ := breakpointS s none
  let ui := s₁.undoIndex + 1
  let idx : Int := (s₁.bigStack.length : Int) - (ui : Int)
  if idx < 0 then some { s₁ with undoIndex := ui }
  else
    match s₁.bigStack.get? idx.toNat with
    | none => some { s₁ with undoIndex := ui }
    | some item =>
        (undoLoop item.stack s₁.doc 0 item.stack.length).map fun r =>
          let sel : ESRange := ⟨item.sel.rfrom - r.2, item.sel.rto - r.2⟩
          selectS { s₁ with
            doc := r.1,
            undoIndex := ui,
            bigStack := s₁.bigStack.set idx.toNat ⟨item.stack, sel⟩ } sel

/-! ## Theorems -/

theorem itemEquiv_refl (it : Item) : itemEquiv it it := by
  cases it with
  | char ch a => exact ⟨rfl, rfl⟩
  | elem t at₀ => cases at₀ <;> simp [itemEquiv, attrsEquiv]

theorem dataEquiv_refl (d : List Item) : dataEquiv d d :=
  List.forall₂_same.2 fun x _ => itemEquiv_refl x

theorem dataEquiv_append {a b c d : List Item} (h₁ : dataEquiv a b)
    (h₂ : dataEquiv c d) : dataEquiv (a ++ c) (b ++ d) :=
  List.rel_append h₁ h₂

theorem applyAnns_nil (it : Item) : applyAnns [] [] it = it := by
  cases it with
  | char ch a => simp [applyAnns]
  | elem t at₀ => rfl

theorem map_applyAnns_nil (l : List Item) : l.map (applyAnns [] []) = l := by
  induction l with
  | nil => rfl
  | cons x t ih => simp [applyAnns_nil, ih]

/-- Multiset content of `List.diff` is multiset subtraction. -/
theorem coe_diff (l t : List Ann) :
    ((l.diff t : List Ann) : Multiset Ann) = (l : Multiset Ann) - (t : Multiset Ann) :=
  (Multiset.coe_sub l t).symm

/-- Per-item inverse of annotation application: setting `s` then clearing `c`,
followed by setting `c` then clearing `s`, restores the annotation multiset,
provided each pending clear was covered. -/
theorem ann_roundtrip {s c : List Ann} {it : Item}
    (h : retainItemOk s c it = true) :
    itemEquiv (applyAnns c s (applyAnns s c it)) it := by
  cases it with
  | elem t at₀ => simp [retainItemOk, Item.isChar] at h
  | char ch a =>
      refine ⟨rfl, ?_⟩
      simp only [retainItemOk, Item.isChar, Bool.true_and, List.all_eq_true,
        Item.annsOf, decide_eq_true_eq] at h
      have hc : (c : Multiset Ann) ≤ (a : Multiset Ann) + (s : Multiset Ann) := by
        rw [Multiset.le_iff_count]
        intro x
        rw [Multiset.coe_count, Multiset.coe_add, Multiset.coe_count]
        by_cases hx : x ∈ c
        · have := h x hx
          rw [List.count_append]
          omega
        · simp [List.count_eq_zero_of_not_mem hx]
      rw [coe_diff, ← Multiset.coe_add, coe_diff, ← Multiset.coe_add]
      rw [tsub_add_cancel_of_le hc, add_tsub_cancel_right]

/-- The rollback pass manipulates mirrored pending lists: what commit does to
`set`, rollback does to `clear`, and vice versa. -/
theorem markStep_mirror {m bias : String} {a : Ann} {s c s' c' : List Ann}
    (h : markStep false m bias a s c = some (s', c')) :
    markStep true m bias a c s = some (c', s') := by
  by_cases hm : m = "set" <;> by_cases hm2 : m = "clear" <;>
    by_cases hb : bias = "start" <;> by_cases hb2 : bias = "stop" <;>
      simp_all [markStep]

theorem setKey_of_keyAbsent {l : List (String × String)} {k : String}
    (h : ∀ p ∈ l, p.1 ≠ k) (v : String) : setKey l k v = l ++ [(k, v)] := by
  induction l with
  | nil => rfl
  | cons p t ih =>
      have hp : p.1 ≠ k := h p (by simp)
      cases p with
      | mk k' v' =>
          simp only [setKey]
          rw [if_neg hp]
          simp only [List.cons_append, List.cons.injEq, true_and]
          exact ih fun q hq => h q (by simp [hq])

theorem eraseKey_append_singleton {l : List (String × String)} {k : String}
    (h : ∀ p ∈ l, p.1 ≠ k) (v : String) : eraseKey (l ++ [(k, v)]) k = l := by
  induction l with
  | nil => simp [eraseKey]
  | cons p t ih =>
      have hp : p.1 ≠ k := h p (by simp)
      cases p with
      | mk k' v' =>
          simp only [List.cons_append, eraseKey]
          rw [if_neg hp]
          simp only [List.cons.injEq, true_and]
          exact ih fun q hq => h q (by simp [hq])

theorem eraseKey_perm {l : List (String × String)} {k v : String}
    (h : l.lookup k = some v) :
    (l : Multiset (String × String)) =
      (k, v) ::ₘ (eraseKey l k : Multiset (String × String)) := by
  induction l with
  | nil => simp [List.lookup] at h
  | cons p t ih =>
      cases p with
      | mk k' v' =>
          by_cases hk : k' = k
          · subst hk
            simp only [List.lookup, beq_self_eq_true, Option.some.injEq] at h
            subst h
            simp [eraseKey]
          · have hbeq : (k == k') = false := by
              simp [beq_eq_false_iff_ne]
              exact fun e => hk e.symm
            simp only [List.lookup, hbeq] at h
            have := ih h
            simp only [eraseKey, if_neg hk]
            calc ((k', v') :: t : Multiset (String × String))
                = (k', v') ::ₘ (t : Multiset (String × String)) := rfl
              _ = (k', v') ::ₘ ((k, v) ::ₘ (eraseKey t k : Multiset (String × String))) := by
                  rw [← this]
              _ = (k, v) ::ₘ ((k', v') ::ₘ (eraseKey t k : Multiset (String × String))) :=
                  Multiset.cons_swap _ _ _
              _ = (k, v) ::ₘ (((k', v') :: eraseKey t k : List (String × String)) :
                    Multiset (String × String)) := rfl

theorem keyAbsent_eraseKey {l : List (String × String)} {k : String}
    (hnd : (l.map Prod.fst).Nodup) : ∀ p ∈ eraseKey l k, p.1 ≠ k := by
  induction l with
  | nil => simp [eraseKey]
  | cons p t ih =>
      cases p with
      | mk k' v' =>
          simp only [List.map_cons, List.nodup_cons] at hnd
          by_cases hk : k' = k
          · subst hk
            simp only [eraseKey, if_pos rfl]
            intro q hq he
            exact hnd.1 (he ▸ List.mem_map_of_mem Prod.fst hq)
          · simp only [eraseKey, if_neg hk]
            intro q hq
            rcases List.mem_cons.1 hq with h' | h'
            · subst h'; exact hk
            · exact ih hnd.2 q h'

/-- Inverse of the attribute-map rewrite: applying the op in the commit
direction and then in the rollback direction restores the attribute object
(up to key order), under `attrCondOk`. -/
theorem attr_roundtrip {m k v : String}
    {attrs attrs1 : Option (List (String × String))}
    (hcond : attrCondOk m k v attrs = true)
    (hc : applyAttrOp false m k v attrs = some attrs1) :
    ∃ attrs2, applyAttrOp true m k v attrs1 = some attrs2 ∧
      attrsEquiv attrs2 attrs := by
  by_cases hm : m = "set"
  · subst hm
    unfold attrCondOk at hcond
    rw [if_pos rfl, Bool.and_eq_true] at hcond
    obtain ⟨habs, hne⟩ := hcond
    rw [List.all_eq_true] at habs
    have habs' : ∀ p ∈ attrs.getD [], p.1 ≠ k := fun p hp => by
      simpa using habs p hp
    have hne' : attrs ≠ some [] := of_decide_eq_true hne
    unfold applyAttrOp at hc ⊢
    rw [if_pos (by decide)] at hc
    rw [if_neg (by decide), if_pos (by decide)]
    injection hc with hc'
    subst hc'
    rw [setKey_of_keyAbsent habs' v]
    simp only [Option.getD_some]
    rw [eraseKey_append_singleton habs' v]
    cases attrs with
    | none => exact ⟨none, by simp [Option.getD], by simp [attrsEquiv]⟩
    | some l =>
        have hl : l ≠ [] := fun e => hne' (by rw [e])
        simp only [Option.getD_some]
        rw [if_neg hl]
        exact ⟨some l, rfl, by simp [attrsEquiv]⟩
  · by_cases hm2 : m = "clear"
    · subst hm2
      unfold attrCondOk at hcond
      rw [if_neg (by decide), if_pos rfl] at hcond
      cases attrs with
      | none => simp at hcond
      | some l =>
          rw [Bool.and_eq_true] at hcond
          obtain ⟨hlk, hnd⟩ := hcond
          have hlk' : List.lookup k l = some v := of_decide_eq_true hlk
          have hnd' : (l.map Prod.fst).Nodup := of_decide_eq_true hnd
          unfold applyAttrOp at hc ⊢
          rw [if_neg (by decide), if_pos (by decide)] at hc
          rw [if_pos (by decide)]
          injection hc with hc'
          subst hc'
          by_cases he : eraseKey l k = []
          · rw [if_pos he]
            refine ⟨some [(k, v)], rfl, ?_⟩
            show ((setKey (Option.getD none []) k v :
              List (String × String)) : Multiset (String × String)) = (l : Multiset (String × String))
            have hp := eraseKey_perm hlk'
            rw [he] at hp
            simp only [Option.getD_none, setKey]
            rw [hp]
            rfl
          · rw [if_neg he]
            refine ⟨some (setKey (eraseKey l k) k v), rfl, ?_⟩
            have habs := keyAbsent_eraseKey (k := k) hnd'
            show ((setKey (Option.getD (some (eraseKey l k)) []) k v :
              List (String × String)) : Multiset (String × String)) = (l : Multiset (String × String))
            simp only [Option.getD_some]
            rw [setKey_of_keyAbsent habs v]
            have hperm := eraseKey_perm hlk'
            rw [hperm, ← Multiset.coe_add, ← Multiset.singleton_add, add_comm]
            rfl
    · unfold attrCondOk at hcond
      rw [if_neg hm, if_neg hm2] at hcond
      exact absurd hcond (by simp)

theorem dropWhile_len_le (p : Item → Bool) (l : List Item) :
    (l.dropWhile p).length ≤ l.length := by
  induction l with
  | nil => simp
  | cons x xs ih =>
      rw [List.dropWhile_cons]
      split
      · exact le_trans ih (by simp)
      · simp

theorem itemShape_refl (a : Item) : itemShape a a := by
  cases a <;> simp [itemShape]

theorem dataShape_refl (l : List Item) : dataShape l l :=
  List.forall₂_same.2 fun x _ => itemShape_refl x

theorem itemShape_of_equiv {a b : Item} (h : itemEquiv a b) : itemShape a b := by
  cases a <;> cases b <;> simp_all [itemEquiv, itemShape]

theorem dataShape_of_equiv {l₁ l₂ : List Item} (h : dataEquiv l₁ l₂) :
    dataShape l₁ l₂ :=
  List.Forall₂.imp (fun _ _ hab => itemShape_of_equiv hab) h

theorem dataShape_length {l₁ l₂ : List Item} (h : dataShape l₁ l₂) :
    l₁.length = l₂.length :=
  h.length_eq

/-- Applying pending annotations twice over never changes an item's shape. -/
theorem dataShape_map_map (s c s' c' : List Ann) (l : List Item) :
    dataShape l ((l.map (applyAnns s c)).map (applyAnns s' c')) := by
  induction l with
  | nil => exact List.Forall₂.nil
  | cons x t ih =>
      refine List.Forall₂.cons ?_ ih
      cases x <;> simp [itemShape, applyAnns]

theorem itemShape_isElement {a b : Item} (h : itemShape a b) :
    a.isElement = b.isElement := by
  cases a <;> cases b <;> simp_all [itemShape, Item.isElement]

theorem shape_takeWhile_len : ∀ {l₁ l₂ : List Item}, dataShape l₁ l₂ →
    (l₁.takeWhile fun it => !it.isElement).length =
      (l₂.takeWhile fun it => !it.isElement).length := by
  intro l₁ l₂ h
  induction h with
  | nil => rfl
  | cons hxy htail ih =>
      rw [List.takeWhile_cons, List.takeWhile_cons, itemShape_isElement hxy]
      split
      · simp [ih]
      · rfl

theorem shape_dropWhile : ∀ {l₁ l₂ : List Item}, dataShape l₁ l₂ →
    dataShape (l₁.dropWhile fun it => !it.isElement)
      (l₂.dropWhile fun it => !it.isElement) := by
  intro l₁ l₂ h
  induction h with
  | nil => exact List.Forall₂.nil
  | cons hxy htail ih =>
      rw [List.dropWhile_cons, List.dropWhile_cons, itemShape_isElement hxy]
      split
      · exact ih
      · exact List.Forall₂.cons hxy htail

/-- `createNodesFromData` reads only the shape of items (content vs marker,
and marker tags), so it maps same-shaped arrays to the same node list. -/
theorem buildGo_congr : ∀ (n : Nat) (l₁ l₂ : List Item) (f : BuildFrame)
    (st : List BuildFrame), l₁.length ≤ n → dataShape l₁ l₂ →
    buildGo l₁ f st = buildGo l₂ f st := by
  intro n
  induction n with
  | zero =>
      intro l₁ l₂ f st hlen heq
      cases heq with
      | nil => rfl
      | cons hxy htail => simp at hlen
  | succ n ih =>
      intro l₁ l₂ f st hlen heq
      cases heq with
      | nil => rfl
      | cons hxy htail =>
          rename_i x y t₁ t₂
          cases x with
          | char c₁ a₁ =>
              cases y with
              | char c₂ a₂ =>
                  rw [buildGo.eq_def, buildGo.eq_def]
                  simp only []
                  rw [shape_takeWhile_len htail]
                  apply ih
                  · have h1 := dropWhile_len_le (fun it => !it.isElement) t₁
                    simp only [List.length_cons] at hlen
                    omega
                  · exact shape_dropWhile htail
              | elem t at₂ => simp [itemShape] at hxy
          | elem tg at₁ =>
              cases y with
              | char c₂ a₂ => simp [itemShape] at hxy
              | elem tg₂ at₂ =>
                  obtain rfl : tg = tg₂ := hxy
                  rw [buildGo.eq_def, buildGo.eq_def]
                  simp only []
                  simp only [List.length_cons] at hlen
                  split
                  · split
                    · rfl
                    · apply ih _ _ _ _ (by omega) htail
                  · split
                    · rfl
                    · split
                      · rfl
                      · apply ih _ _ _ _ (by omega) htail

theorem createNodesFromData_congr {l₁ l₂ : List Item} (h : dataShape l₁ l₂) :
    createNodesFromData l₁ = createNodesFromData l₂ :=
  buildGo_congr l₁.length l₁ l₂ _ _ le_rfl h

theorem docRoot_congr {l₁ l₂ : List Item} (h : dataShape l₁ l₂) :
    docRoot l₁ = docRoot l₂ := by
  rw [docRoot, docRoot, createNodesFromData_congr h]

/-- The merge validation looks only at the document's shape. -/
theorem removeOk_congr {l₁ l₂ : List Item} (h : dataShape l₁ l₂) (k : Nat)
    (d : List Item) : removeOk l₁ k d = removeOk l₂ k d := by
  rw [removeOk, removeOk, docRoot_congr h]

/-- The processor's result depends on the already-processed prefix only
through the shape-insensitive merge validation, so shape-equal prefixes give
equal results. -/
theorem processOps_pre_congr (invert : Bool) :
    ∀ (ops : List Op) (pre₁ pre₂ suffix : List Item) (s c : List Ann),
      dataShape pre₁ pre₂ →
      processOps invert ops pre₁ suffix s c =
        processOps invert ops pre₂ suffix s c := by
  intro ops
  induction ops with
  | nil => intro pre₁ pre₂ suffix s c _; rfl
  | cons op rest ih =>
      intro pre₁ pre₂ suffix s c h
      cases op with
      | retain n =>
          simp only [processOps]
          rw [ih _ _ _ _ _ (List.rel_append h (dataShape_refl _))]
      | insert d =>
          simp only [processOps]
          cases invert with
          | false =>
              simp only [Bool.false_eq_true, if_false]
              rw [ih _ _ _ _ _ (List.rel_append h (dataShape_refl _))]
          | true =>
              simp only [if_true]
              have hok : removeOk (pre₁ ++ suffix) pre₁.length d =
                  removeOk (pre₂ ++ suffix) pre₂.length d := by
                rw [removeOk_congr (List.rel_append h (dataShape_refl suffix)),
                  dataShape_length h]
              rw [hok, ih _ _ _ _ _ h]
      | remove d =>
          simp only [processOps]
          cases invert with
          | false =>
              simp only [Bool.false_eq_true, if_false]
              have hok : removeOk (pre₁ ++ suffix) pre₁.length d =
                  removeOk (pre₂ ++ suffix) pre₂.length d := by
                rw [removeOk_congr (List.rel_append h (dataShape_refl suffix)),
                  dataShape_length h]
              rw [hok, ih _ _ _ _ _ h]
          | true =>
              simp only [if_true]
              rw [ih _ _ _ _ _ (List.rel_append h (dataShape_refl _))]
      | attr m k v =>
          match suffix with
          | [] => rfl
          | Item.char ch a :: tail => rfl
          | Item.elem tag attrs :: tail =>
              simp only [processOps]
              rcases applyAttrOp invert m k v attrs with - | attrs'
              · rfl
              · exact ih _ _ _ _ _ h
      | annotate m bias a =>
          simp only [processOps]
          rcases markStep invert m bias a s c with - | ⟨s', c'⟩
          · rfl
          · exact ih _ _ _ _ _ h

/-- Commit followed by rollback of the same operation list restores the
array suffix up to per-character annotation order (`dataEquiv`).  `pre` is
the commit-side prefix (threaded identically by `validOps` and by the commit
pass), `origPre` the original data consumed so far, and `pre₂` the
rollback-side prefix; `origPre` and `pre₂` stay shape-equal, which transports
the rollback-side merge validation recorded by `validOps` to the guard the
rollback pass actually evaluates. -/
theorem processOps_roundtrip :
    ∀ (ops : List Op) (pre origPre pre₂ suffix : List Item) (s c : List Ann),
      dataShape origPre pre₂ →
      validOps ops pre origPre suffix s c = true →
      ∃ out, processOps false ops pre suffix s c = some out ∧
        ∃ back, processOps true ops pre₂ out c s = some back ∧
          dataEquiv back suffix := by
  intro ops
  induction ops with
  | nil =>
      intro pre origPre pre₂ suffix s c _ _
      exact ⟨suffix, rfl, suffix, rfl, dataEquiv_refl suffix⟩
  | cons op rest ih =>
      intro pre origPre pre₂ suffix s c hsh hv
      cases op with
      | retain n =>
          simp only [validOps, Bool.and_eq_true] at hv
          obtain ⟨⟨hn, hspan⟩, hrest⟩ := hv
          have hn' : n ≤ suffix.length := of_decide_eq_true hn
          obtain ⟨out, hout, back, hback, hbeq⟩ :=
            ih (pre ++ (suffix.take n).map (applyAnns s c))
              (origPre ++ suffix.take n)
              (pre₂ ++ ((suffix.take n).map (applyAnns s c)).map (applyAnns c s))
              (suffix.drop n) s c
              (List.rel_append hsh (dataShape_map_map s c c s (suffix.take n)))
              hrest
          have hlen : ((suffix.take n).map (applyAnns s c)).length = n := by
            simp [List.length_take, Nat.min_eq_left hn']
          refine ⟨(suffix.take n).map (applyAnns s c) ++ out, ?_, ?_⟩
          · show (processOps false rest
                (pre ++ (suffix.take n).map (applyAnns s c))
                (suffix.drop n) s c).map
                (fun o => (suffix.take n).map (applyAnns s c) ++ o) = _
            rw [hout]
            rfl
          · refine ⟨((suffix.take n).map (applyAnns s c)).map (applyAnns c s) ++ back,
              ?_, ?_⟩
            · show (processOps true rest
                  (pre₂ ++ (((suffix.take n).map (applyAnns s c) ++ out).take n).map
                    (applyAnns c s))
                  (((suffix.take n).map (applyAnns s c) ++ out).drop n) c s).map
                  (fun o =>
                    (((suffix.take n).map (applyAnns s c) ++ out).take n).map
                      (applyAnns c s) ++ o) = _
              rw [List.take_left' hlen, List.drop_left' hlen, hback]
              rfl
            · have h1 : dataEquiv
                  (((suffix.take n).map (applyAnns s c)).map (applyAnns c s))
                  (suffix.take n) := by
                rw [List.map_map]
                rw [dataEquiv, List.forall₂_map_left_iff]
                apply List.forall₂_same.2
                intro it hit
                show itemEquiv (applyAnns c s (applyAnns s c it)) it
                rw [Bool.or_eq_true] at hspan
                rcases hspan with hemp | hall
                · rw [Bool.and_eq_true] at hemp
                  have hs : s = [] := List.isEmpty_iff.mp hemp.1
                  have hc : c = [] := List.isEmpty_iff.mp hemp.2
                  subst hs; subst hc
                  rw [applyAnns_nil, applyAnns_nil]
                  exact itemEquiv_refl it
                · rw [List.all_eq_true] at hall
                  exact ann_roundtrip (hall it hit)
              have := dataEquiv_append h1 hbeq
              rwa [List.take_append_drop] at this
      | insert d =>
          simp only [validOps, Bool.and_eq_true] at hv
          obtain ⟨⟨⟨hs, hc⟩, hguard⟩, hrest⟩ := hv
          have hs' : s = [] := List.isEmpty_iff.mp hs
          have hc' : c = [] := List.isEmpty_iff.mp hc
          subst hs'; subst hc'
          simp only [map_applyAnns_nil] at hguard hrest
          obtain ⟨out, hout, back, hback, hbeq⟩ :=
            ih (pre ++ d) origPre pre₂ suffix [] [] hsh hrest
          rw [hout] at hguard
          simp only [] at hguard
          have hlen2 : origPre.length = pre₂.length := dataShape_length hsh
          have hshape2 : dataShape (origPre ++ d ++ out) (pre₂ ++ (d ++ out)) := by
            rw [List.append_assoc]
            exact List.rel_append hsh (dataShape_refl (d ++ out))
          rw [hlen2, removeOk_congr hshape2] at hguard
          refine ⟨d ++ out, ?_, back, ?_, hbeq⟩
          · show (processOps false rest (pre ++ d.map (applyAnns [] []))
                suffix [] []).map
                (fun o => d.map (applyAnns [] []) ++ o) = _
            simp only [map_applyAnns_nil]
            rw [hout]
            rfl
          · show (if removeOk (pre₂ ++ (d ++ out)) pre₂.length d then
                processOps true rest pre₂ ((d ++ out).drop d.length) [] []
              else none) = _
            rw [if_pos hguard, List.drop_left, hback]
      | remove d =>
          simp only [validOps, Bool.and_eq_true] at hv
          obtain ⟨⟨⟨⟨hs, hc⟩, htake⟩, hrOk⟩, hrest⟩ := hv
          have hs' : s = [] := List.isEmpty_iff.mp hs
          have hc' : c = [] := List.isEmpty_iff.mp hc
          subst hs'; subst hc'
          have htake' : suffix.take d.length = d := of_decide_eq_true htake
          obtain ⟨out, hout, back, hback, hbeq⟩ :=
            ih pre (origPre ++ d) (pre₂ ++ d) (suffix.drop d.length) [] []
              (List.rel_append hsh (dataShape_refl d)) hrest
          refine ⟨out, ?_, d ++ back, ?_, ?_⟩
          · show (if removeOk (pre ++ suffix) pre.length d then
                processOps false rest pre (suffix.drop d.length) [] []
              else none) = _
            rw [if_pos hrOk, hout]
          · show (processOps true rest (pre₂ ++ d.map (applyAnns [] []))
                out [] []).map
                (fun o => d.map (applyAnns [] []) ++ o) = _
            simp only [map_applyAnns_nil]
            rw [hback]
            rfl
          · have h1 : dataEquiv d (suffix.take d.length) := by
              rw [htake']
              exact dataEquiv_refl d
            have := dataEquiv_append h1 hbeq
            rwa [List.take_append_drop] at this
      | attr m k v =>
          match suffix with
          | [] => simp [validOps] at hv
          | Item.char ch a :: tail => simp [validOps] at hv
          | Item.elem tag attrs :: tail =>
            have hvFull := hv
            simp only [validOps, Bool.and_eq_true] at hv
            obtain ⟨⟨⟨⟨hs, hc⟩, hafter⟩, hcond⟩, hrest⟩ := hv
            have hs' : s = [] := List.isEmpty_iff.mp hs
            have hc' : c = [] := List.isEmpty_iff.mp hc
            subst hs'; subst hc'
            rcases hattr : applyAttrOp false m k v attrs with _ | attrs1
            · rw [hattr] at hrest; exact absurd hrest (by simp)
            rw [hattr] at hrest
            obtain ⟨attrs2, hinv, heq2⟩ := attr_roundtrip hcond hattr
            match rest, hafter, hrest with
            | [], _, hrest =>
                refine ⟨Item.elem tag attrs1 :: tail, ?_,
                  Item.elem tag attrs2 :: tail, ?_, ?_⟩
                · simp only [processOps]
                  rw [hattr]
                · simp only [processOps]
                  rw [hinv]
                · exact List.Forall₂.cons ⟨rfl, heq2⟩ (dataEquiv_refl tail)
            | Op.retain n :: rest', hafter, hrest =>
                have hrest : validOps (Op.retain n :: rest') pre origPre
                    (Item.elem tag attrs1 :: tail) [] [] = true := hrest
                have hn1 : 1 ≤ n := of_decide_eq_true hafter
                obtain ⟨m', rfl⟩ : ∃ m', n = m' + 1 := ⟨n - 1, by omega⟩
                have hvo := hrest
                simp only [validOps, Bool.and_eq_true] at hvo
                obtain ⟨⟨hn, _hspan⟩, _⟩ := hvo
                have hm' : m' ≤ tail.length := by
                  have := of_decide_eq_true hn
                  simp only [List.length_cons] at this
                  omega
                have hlen : (List.take m' tail).length = m' := by
                  simp [List.length_take, Nat.min_eq_left hm']
                obtain ⟨out, hout, back, hback, hbeq⟩ :=
                  ih pre origPre pre₂ (Item.elem tag attrs1 :: tail) [] [] hsh
                    hrest
                simp only [processOps, List.take_succ_cons, List.drop_succ_cons,
                  Option.map_eq_some'] at hout
                obtain ⟨out', hr', hout⟩ := hout
                rw [List.map_cons, map_applyAnns_nil,
                  show applyAnns [] [] (Item.elem tag attrs1) =
                    Item.elem tag attrs1 from rfl] at hout
                subst hout
                simp only [processOps, List.cons_append, List.take_succ_cons,
                  List.drop_succ_cons, Option.map_eq_some'] at hback
                obtain ⟨a, ha, hbackeq⟩ := hback
                rw [List.take_left' hlen, List.drop_left' hlen] at ha
                rw [List.take_left' hlen, List.map_cons, map_applyAnns_nil,
                  show applyAnns [] [] (Item.elem tag attrs1) =
                    Item.elem tag attrs1 from rfl] at hbackeq
                subst hbackeq
                refine ⟨Item.elem tag attrs1 :: (List.take m' tail ++ out'), ?_,
                  Item.elem tag attrs2 :: (List.take m' tail ++ a), ?_, ?_⟩
                · simp only [processOps]
                  rw [hattr]
                  simp only [processOps, List.take_succ_cons, List.drop_succ_cons]
                  rw [hr']
                  simp only [Option.map_some', List.map_cons, map_applyAnns_nil,
                    List.cons_append]
                  rfl
                · simp only [processOps]
                  rw [hinv]
                  simp only [processOps, List.cons_append, List.take_succ_cons,
                    List.drop_succ_cons]
                  rw [List.take_left' hlen, List.drop_left' hlen]
                  have hpc : processOps true rest'
                      (pre₂ ++ List.map (applyAnns [] [])
                        (Item.elem tag attrs2 :: List.take m' tail))
                      out' [] [] =
                      processOps true rest'
                      (pre₂ ++ List.map (applyAnns [] [])
                        (Item.elem tag attrs1 :: List.take m' tail))
                      out' [] [] :=
                    processOps_pre_congr true rest' _ _ out' [] []
                      (List.rel_append (dataShape_refl pre₂)
                        (List.Forall₂.cons rfl (dataShape_refl _)))
                  rw [hpc, ha]
                  simp only [Option.map_some', List.map_cons, map_applyAnns_nil,
                    List.cons_append]
                  rfl
                · cases hbeq with
                  | cons hhead htail =>
                      exact List.Forall₂.cons ⟨rfl, heq2⟩ htail
            | Op.insert _ :: _, hafter, _ =>
                exact absurd hafter (by simp [afterAttrOk])
            | Op.remove _ :: _, hafter, _ =>
                exact absurd hafter (by simp [afterAttrOk])
            | Op.attr _ _ _ :: _, hafter, _ =>
                exact absurd hafter (by simp [afterAttrOk])
            | Op.annotate _ _ _ :: _, hafter, _ =>
                exact absurd hafter (by simp [afterAttrOk])
      | annotate m bias a =>
          simp only [validOps] at hv
          rcases hms : markStep false m bias a s c with _ | ⟨s1, c1⟩
          · rw [hms] at hv; exact absurd hv (by simp)
          rw [hms] at hv
          obtain ⟨out, hout, back, hback, hbeq⟩ :=
            ih pre origPre pre₂ suffix s1 c1 hsh hv
          refine ⟨out, ?_, back, ?_, hbeq⟩
          · show (match markStep false m bias a s c with
              | some (s', c') => processOps false rest pre suffix s' c'
              | none => none) = _
            rw [hms]
            exact hout
          · show (match markStep true m bias a c s with
              | some (s', c') => processOps true rest pre₂ out s' c'
              | none => none) = _
            rw [markStep_mirror hms]
            exact hback

theorem applyCall_lengthDifference (tx : TxModel) (c : BuilderCall) :
    (applyCall tx c).lengthDifference =
      tx.lengthDifference +
        (match c with
          | .insert d => (d.length : Int)
          | .remove d => -(d.length : Int)
          | _ => 0) := by
  cases c with
  | retain n =>
      simp only [applyCall, TxModel.pushRetain]
      split <;> simp
  | insert d =>
      simp only [applyCall, TxModel.pushInsert]
      split <;> simp
  | remove d =>
      simp only [applyCall, TxModel.pushRemove]
      split <;> simp [sub_eq_add_neg]
  | changeAttr m k v => simp [applyCall, TxModel.pushChangeElementAttribute]
  | startAnn m a => simp [applyCall, TxModel.pushStartAnnotating]
  | stopAnn m a => simp [applyCall, TxModel.pushStopAnnotating]

theorem buildTx_go_lengthDifference (calls : List BuilderCall) (tx : TxModel) :
    (calls.foldl applyCall tx).lengthDifference =
      tx.lengthDifference + (insertTotal calls - removeTotal calls) := by
  induction calls generalizing tx with
  | nil => simp [insertTotal, removeTotal]
  | cons c rest ih =>
      rw [List.foldl_cons, ih, applyCall_lengthDifference]
      cases c <;> simp [insertTotal, removeTotal] <;> ring

/-- **C8.** In the `es.TransactionModel` builder, `pushRetain`, `pushInsert`
and `pushRemove` coalesce with an immediately preceding operation of the same
kind (summing retain lengths, concatenating insert/remove data, all.js
5328-5376), and after any sequence of builder calls `lengthDifference` equals
the total length of all data pushed via `pushInsert` minus the total length of
all data pushed via `pushRemove`. -/
theorem transactionBuilder_coalesce_and_lengthDifference :
    (∀ (tx : TxModel) (ops : List Op) (n m : Nat) (ld : Int),
        tx = ⟨ops ++ [Op.retain n], ld⟩ →
        tx.pushRetain m = ⟨ops ++ [Op.retain (n + m)], ld⟩) ∧
    (∀ (tx : TxModel) (ops : List Op) (d₁ d₂ : List Item) (ld : Int),
        tx = ⟨ops ++ [Op.insert d₁], ld⟩ →
        tx.pushInsert d₂ = ⟨ops ++ [Op.insert (d₁ ++ d₂)], ld + d₂.length⟩) ∧
    (∀ (tx : TxModel) (ops : List Op) (d₁ d₂ : List Item) (ld : Int),
        tx = ⟨ops ++ [Op.remove d₁], ld⟩ →
        tx.pushRemove d₂ = ⟨ops ++ [Op.remove (d₁ ++ d₂)], ld - d₂.length⟩) ∧
    (∀ calls : List BuilderCall,
        (buildTx calls).lengthDifference =
          insertTotal calls - removeTotal calls) := by
  refine ⟨?_, ?_, ?_, ?_⟩
  · rintro tx ops n m ld rfl
    simp [TxModel.pushRetain, List.getLast?_concat, List.dropLast_concat]
  · rintro tx ops d₁ d₂ ld rfl
    simp [TxModel.pushInsert, List.getLast?_concat, List.dropLast_concat]
  · rintro tx ops d₁ d₂ ld rfl
    simp [TxModel.pushRemove, List.getLast?_concat, List.dropLast_concat]
  · intro calls
    have h := buildTx_go_lengthDifference calls TxModel.empty
    simpa [buildTx, TxModel.empty] using h

/-- Witness for C8 at concrete inputs. -/
theorem transactionBuilder_coalesce_and_lengthDifference_witness :
    (TxModel.mk [Op.retain 2] 0).pushRetain 3 = ⟨[Op.retain 5], 0⟩ ∧
    (buildTx [.insert [Item.char 'a' []], .retain 1,
        .remove [Item.char 'b' [], Item.char 'c' []]]).lengthDifference = -1 := by
  refine ⟨?_, ?_⟩
  · exact (transactionBuilder_coalesce_and_lengthDifference.1
      ⟨[Op.retain 2], 0⟩ [] 2 3 0 rfl)
  · exact (transactionBuilder_coalesce_and_lengthDifference.2.2.2
      [.insert [Item.char 'a' []], .retain 1,
        .remove [Item.char 'b' [], Item.char 'c' []]]).trans (by decide)




/-- **C1 (counterexample).** The claim as stated fails: committing a valid
transaction that clears a non-final annotation of a character and then rolling
it back re-appends the cleared annotation at the *end* of the character's
annotation array, so the linear array is not restored to deep equality
(annotation arrays are order-sensitive under deep equality).  The transaction
is exactly what `prepareContentAnnotation(new es.Range(1,2), 'clear', x)`
builds for this document. -/
theorem commitRollback_not_deepEqual :
    validTx
      [Item.elem "paragraph" none, Item.char 'a' [⟨"x"⟩, ⟨"y"⟩],
        Item.elem "/paragraph" none]
      ⟨[Op.retain 1, Op.annotate "clear" "start" ⟨"x"⟩, Op.retain 1,
        Op.annotate "clear" "stop" ⟨"x"⟩, Op.retain 1], 0⟩ = true ∧
    commitData
      [Item.elem "paragraph" none, Item.char 'a' [⟨"x"⟩, ⟨"y"⟩],
        Item.elem "/paragraph" none]
      ⟨[Op.retain 1, Op.annotate "clear" "start" ⟨"x"⟩, Op.retain 1,
        Op.annotate "clear" "stop" ⟨"x"⟩, Op.retain 1], 0⟩ =
      some [Item.elem "paragraph" none, Item.char 'a' [⟨"y"⟩],
        Item.elem "/paragraph" none] ∧
    rollbackData
      [Item.elem "paragraph" none, Item.char 'a' [⟨"y"⟩],
        Item.elem "/paragraph" none]
      ⟨[Op.retain 1, Op.annotate "clear" "start" ⟨"x"⟩, Op.retain 1,
        Op.annotate "clear" "stop" ⟨"x"⟩, Op.retain 1], 0⟩ =
      some [Item.elem "paragraph" none, Item.char 'a' [⟨"y"⟩, ⟨"x"⟩],
        Item.elem "/paragraph" none] ∧
    [Item.elem "paragraph" none, Item.char 'a' [⟨"y"⟩, ⟨"x"⟩],
        Item.elem "/paragraph" none] ≠
      [Item.elem "paragraph" none, Item.char 'a' [⟨"x"⟩, ⟨"y"⟩],
        Item.elem "/paragraph" none] := by
  refine ⟨by decide, by decide, by decide, by decide⟩

/-- **C1 (amended).** For any document state and any valid transaction `tx`,
committing `tx` and then rolling back the same `tx` (rollback runs the dual
per-operation mapping: insert and remove swapped, attribute set and clear
swapped, annotate set and clear swapped) restores the document's linear data
array up to the order of each character's annotation list (same character and
same annotation multiset per slot — JavaScript deep equality holds whenever no
cleared annotation sat before another annotation of the same character), and
restores every node of the rebuilt model tree, in particular every node's
content length, to its pre-`tx` value.  Validity includes passing the merge
validation that `TransactionProcessor.remove` runs for element-containing
removals — on the commit pass for each `remove` and on the rollback pass for
each `insert` (processed there by the `remove` method); a transaction failing
either check makes the program throw mid-pass
(`remove_invalid_merge_throws`) and is not a valid transaction. -/
theorem commit_rollback_inverse (data : List Item) (tx : TxModel)
    (hv : validTx data tx = true) :
    ∃ out, commitData data tx = some out ∧
      ∃ back, rollbackData out tx = some back ∧ dataEquiv back data ∧
        createNodesFromData back = createNodesFromData data := by
  obtain ⟨out, hout, back, hback, hbeq⟩ :=
    processOps_roundtrip tx.operations [] [] [] data [] [] List.Forall₂.nil hv
  exact ⟨out, hout, back, hback, hbeq,
    createNodesFromData_congr (dataShape_of_equiv hbeq)⟩

/-- Witness for C1 (amended) at a concrete document and insertion
transaction. -/
theorem commit_rollback_inverse_witness :
    validTx
      [Item.elem "paragraph" none, Item.char 'a' [], Item.elem "/paragraph" none]
      ⟨[Op.retain 1, Op.insert [Item.char 'X' []], Op.retain 2], 1⟩ = true ∧
    (∃ out, commitData
        [Item.elem "paragraph" none, Item.char 'a' [],
          Item.elem "/paragraph" none]
        ⟨[Op.retain 1, Op.insert [Item.char 'X' []], Op.retain 2], 1⟩ =
          some out ∧
      ∃ back, rollbackData out
          ⟨[Op.retain 1, Op.insert [Item.char 'X' []], Op.retain 2], 1⟩ =
            some back ∧
        dataEquiv back
          [Item.elem "paragraph" none, Item.char 'a' [],
            Item.elem "/paragraph" none] ∧
        createNodesFromData back =
          createNodesFromData
            [Item.elem "paragraph" none, Item.char 'a' [],
              Item.elem "/paragraph" none]) :=
  ⟨by decide, commit_rollback_inverse _ _ (by decide)⟩


/-- **C4.** For data containing no element markers, `prepareInsertion(offset,
data)` throws when `offset` is outside `[0, docData.length]`; otherwise it
returns a transaction of the shape `retain(offset)` (present iff
`offset > 0`), `insert(d)`, `retain(length - offset)` (present iff
`offset < length`), where `d` is the input data wrapped in a paragraph opening
and closing marker when `offset` is a structural offset, and the input data
verbatim when `offset` is a content offset. -/
theorem prepareInsertion_pure_content (docData : List Item) (root : MNode)
    (offset : Int) (d : List Item) (hd : containsElementData d = false) :
    ((offset < 0 ∨ offset > docData.length) →
      prepareInsertion docData root offset d = none) ∧
    (0 ≤ offset → offset ≤ docData.length →
      prepareInsertion docData root offset d = some
        ⟨(if 0 < offset.toNat then [Op.retain offset.toNat] else []) ++
          [Op.insert (if isStructuralOffset docData offset.toNat then
            Item.elem "paragraph" none :: (d ++ [Item.elem "/paragraph" none])
            else d)] ++
          (if offset < docData.length then
            [Op.retain (docData.length - offset.toNat)] else []),
          (if isStructuralOffset docData offset.toNat then
            Item.elem "paragraph" none :: (d ++ [Item.elem "/paragraph" none])
            else d).length⟩) := by
  constructor
  · intro hout
    rw [prepareInsertion, if_pos hout]
  · intro h0 h1
    rw [prepareInsertion, if_neg (by omega)]
    rw [hd]
    simp only [Bool.false_eq_true, if_false]
    by_cases hs : isStructuralOffset docData offset.toNat = true
    · rw [if_pos hs, hs]
      simp only [if_true, Option.map_some']
      by_cases hz : 0 < offset.toNat
      · rw [if_pos hz, if_pos hz]
        by_cases he : offset < docData.length
        · rw [if_pos he, if_pos he]
          simp [TxModel.empty, TxModel.pushRetain, TxModel.pushInsert,
            List.getLast?]
        · rw [if_neg he, if_neg he]
          simp [TxModel.empty, TxModel.pushRetain, TxModel.pushInsert,
            List.getLast?]
      · rw [if_neg hz, if_neg hz]
        by_cases he : offset < docData.length
        · rw [if_pos he, if_pos he]
          simp [TxModel.empty, TxModel.pushRetain, TxModel.pushInsert,
            List.getLast?]
        · rw [if_neg he, if_neg he]
          simp [TxModel.empty, TxModel.pushRetain, TxModel.pushInsert,
            List.getLast?]
    · rw [if_neg hs]
      rw [show isStructuralOffset docData offset.toNat = false from
        Bool.eq_false_iff.mpr hs]
      simp only [Bool.false_eq_true, if_false, Option.map_some']
      by_cases hz : 0 < offset.toNat
      · rw [if_pos hz, if_pos hz]
        by_cases he : offset < docData.length
        · rw [if_pos he, if_pos he]
          simp [TxModel.empty, TxModel.pushRetain, TxModel.pushInsert,
            List.getLast?]
        · rw [if_neg he, if_neg he]
          simp [TxModel.empty, TxModel.pushRetain, TxModel.pushInsert,
            List.getLast?]
      · rw [if_neg hz, if_neg hz]
        by_cases he : offset < docData.length
        · rw [if_pos he, if_pos he]
          simp [TxModel.empty, TxModel.pushRetain, TxModel.pushInsert,
            List.getLast?]
        · rw [if_neg he, if_neg he]
          simp [TxModel.empty, TxModel.pushRetain, TxModel.pushInsert,
            List.getLast?]

/-- Witness for C4: inserting 'X' at content offset 2 of `<p>ab</p>`, and the
out-of-bounds failure at offset 5. -/
theorem prepareInsertion_pure_content_witness :
    containsElementData [Item.char 'X' []] = false ∧
    prepareInsertion
      [Item.elem "paragraph" none, Item.char 'a' [], Item.char 'b' [],
        Item.elem "/paragraph" none]
      (MNode.branch "document" 4 [MNode.leaf "paragraph" 2]) 2
      [Item.char 'X' []] =
      some ⟨[Op.retain 2, Op.insert [Item.char 'X' []], Op.retain 2], 1⟩ ∧
    prepareInsertion
      [Item.elem "paragraph" none, Item.char 'a' [], Item.char 'b' [],
        Item.elem "/paragraph" none]
      (MNode.branch "document" 4 [MNode.leaf "paragraph" 2]) 5
      [Item.char 'X' []] = none := by
  refine ⟨rfl, ?_, ?_⟩
  · have h := (prepareInsertion_pure_content
      [Item.elem "paragraph" none, Item.char 'a' [], Item.char 'b' [],
        Item.elem "/paragraph" none]
      (MNode.branch "document" 4 [MNode.leaf "paragraph" 2]) 2
      [Item.char 'X' []] rfl).2 (by decide) (by decide)
    rw [h]
    decide
  · exact (prepareInsertion_pure_content
      [Item.elem "paragraph" none, Item.char 'a' [], Item.char 'b' [],
        Item.elem "/paragraph" none]
      (MNode.branch "document" 4 [MNode.leaf "paragraph" 2]) 5
      [Item.char 'X' []] rfl).1 (by decide)


theorem wellSized_branch {ty : String} {len : Nat} {cs : List MNode}
    (h : wellSized (.branch ty len cs) = true) :
    len = (cs.map MNode.getElementLength).sum ∧
      ∀ c ∈ cs, wellSized c = true := by
  rw [wellSized, Bool.and_eq_true] at h
  refine ⟨by simpa using h.1, fun c hc => ?_⟩
  have := List.all_eq_true.mp h.2 ⟨c, hc⟩ (List.mem_attach _ _)
  simpa using this

theorem sum_take_get_le {cs : List MNode} {i : Nat} (h : i < cs.length) :
    ((cs.take i).map MNode.getElementLength).sum +
      (cs.get ⟨i, h⟩).getElementLength ≤
      (cs.map MNode.getElementLength).sum := by
  induction cs generalizing i with
  | nil => simp at h
  | cons c rest ih =>
      cases i with
      | zero => simp
      | succ j =>
          simp only [List.take_succ_cons, List.map_cons, List.sum_cons,
            List.get_cons_succ]
          have := ih (i := j) (by simpa using h)
          omega

/-- For a nonempty valid path, the offset of the addressed node leaves room
for its own two markers inside the parent's content. -/
theorem getOffsetFromNode_bound :
    ∀ (p : List Nat) (n : MNode), wellSized n = true → validPath n p = true →
      p ≠ [] → ∀ off, getOffsetFromNode n p = some off →
        off + 2 ≤ n.getContentLength := by
  intro p
  induction p with
  | nil => intro n _ _ hne; exact absurd rfl hne
  | cons i p' ih =>
      intro n hw hp _ off hoff
      cases n with
      | leaf ty len => simp [validPath] at hp
      | branch ty len cs =>
          rw [validPath] at hp
          split at hp
          case isFalse => exact absurd hp (by simp)
          case isTrue h =>
            obtain ⟨hlen, hws⟩ := wellSized_branch hw
            rw [getOffsetFromNode] at hoff
            rw [dif_pos h] at hoff
            cases p' with
            | nil =>
                injection hoff with hoff
                subst hoff
                have hb := sum_take_get_le h
                have : 2 ≤ (cs.get ⟨i, h⟩).getElementLength := by
                  rw [MNode.getElementLength]; omega
                rw [MNode.getContentLength, hlen]
                omega
            | cons j q =>
                rw [Option.map_eq_some'] at hoff
                obtain ⟨off', hoff', rfl⟩ := hoff
                have hchild := ih (cs.get ⟨i, h⟩)
                  (hws _ (cs.get_mem _ _)) hp (by simp) off' hoff'
                have hb := sum_take_get_le h
                rw [MNode.getContentLength, hlen]
                rw [MNode.getElementLength] at hb
                omega

theorem getNodeFromOffset_zero (n : MNode) (s : Bool) :
    getNodeFromOffset n 0 s = some [] := by
  unfold getNodeFromOffset
  simp

/-- Walking the `getNodeFromOffset` child loop to the child that contains the
target offset. -/
theorem gnfoGo_enter :
    ∀ (cs : List MNode) (i : Nat) (h : i < cs.length)
      (offset idx nodeOffset r : Nat),
      offset = nodeOffset + ((cs.take i).map MNode.getElementLength).sum + r →
      1 ≤ r → r < (cs.get ⟨i, h⟩).getElementLength →
      getNodeFromOffset.gnfoGo cs offset false idx nodeOffset =
        (if (cs.get ⟨i, h⟩).hasChildren ∧ (cs.get ⟨i, h⟩).childrenOf.length ≠ 0
          then (getNodeFromOffset (cs.get ⟨i, h⟩) (r - 1) false).map
            (fun p => (idx + i) :: p)
          else some [idx + i]) := by
  intro cs
  induction cs with
  | nil => intro i h; simp at h
  | cons c rest ih =>
      intro i h offset idx nodeOffset r hoff hr1 hr2
      cases i with
      | zero =>
          simp only [List.take_zero, List.map_nil, List.sum_nil,
            Nat.add_zero] at hoff
          have hget : (c :: rest).get ⟨0, h⟩ = c := rfl
          rw [hget] at hr2 ⊢
          rw [getNodeFromOffset.gnfoGo]
          rw [if_neg (by omega)]
          rw [if_pos ⟨by omega, by omega⟩]
          simp only [Bool.not_false, Nat.add_zero]
          have hsub : offset - nodeOffset - 1 = r - 1 := by omega
          rw [hsub]
          by_cases hcb : c.hasChildren = true ∧ c.childrenOf.length ≠ 0
          · rw [if_pos (by simpa using hcb), if_pos hcb]
          · rw [if_neg (by simpa using hcb), if_neg hcb]
      | succ j =>
          have hj : j < rest.length := by simpa using h
          have hget : (c :: rest).get ⟨j + 1, h⟩ = rest.get ⟨j, hj⟩ := rfl
          rw [hget] at hr2 ⊢
          simp only [List.take_succ_cons, List.map_cons, List.sum_cons] at hoff
          rw [getNodeFromOffset.gnfoGo]
          rw [if_neg (by
            rw [MNode.getElementLength] at hoff
            omega)]
          rw [if_neg (by
            rw [MNode.getElementLength] at hoff ⊢
            omega)]
          have := ih j hj offset (idx + 1) (nodeOffset + c.getElementLength) r
            (by omega) hr1 hr2
          rw [this]
          have harith : idx + 1 + j = idx + (j + 1) := by omega
          rw [harith]

/-- **C9 (amended).** For every non-root node `n` of a well-sized tree,
`getNodeFromOffset(getOffsetFromNode(n) + 1)` (the first offset *inside*
`n`, non-shallow) returns `n` itself; at `getOffsetFromNode(n)` exactly — the
structural position of `n`'s opening marker — `getNodeFromOffset` returns
`n`'s parent instead (see the counterexample). -/
theorem getNodeFromOffset_inverse :
    ∀ (p : List Nat) (n : MNode), wellSized n = true → validPath n p = true →
      p ≠ [] → ∀ off, getOffsetFromNode n p = some off →
        getNodeFromOffset n (off + 1) false = some p := by
  intro p
  induction p with
  | nil => intro n _ _ hne; exact absurd rfl hne
  | cons i p' ih =>
      intro n hw hp _ off hoff
      cases n with
      | leaf ty len => simp [validPath] at hp
      | branch ty len cs =>
          rw [validPath] at hp
          split at hp
          case isFalse => exact absurd hp (by simp)
          case isTrue h =>
            obtain ⟨hlen, hws⟩ := wellSized_branch hw
            rw [getOffsetFromNode] at hoff
            rw [dif_pos h] at hoff
            rw [getNodeFromOffset]
            rw [if_neg (by omega)]
            rw [if_neg (by
              intro hcs
              rw [hcs] at h
              simp at h)]
            cases p' with
            | nil =>
                injection hoff with hoff
                subst hoff
                rw [gnfoGo_enter cs i h _ 0 0 1 (by omega) le_rfl
                  (by rw [MNode.getElementLength]; omega)]
                by_cases hcb : (cs.get ⟨i, h⟩).hasChildren = true ∧
                    (cs.get ⟨i, h⟩).childrenOf.length ≠ 0
                · rw [if_pos hcb]
                  have h0 : (1 : Nat) - 1 = 0 := rfl
                  rw [h0, getNodeFromOffset_zero]
                  simp
                · rw [if_neg hcb]
                  simp
            | cons j q =>
                rw [Option.map_eq_some'] at hoff
                obtain ⟨off', hoff', rfl⟩ := hoff
                have hwc : wellSized (cs.get ⟨i, h⟩) = true :=
                  hws _ (cs.get_mem _ _)
                have hbound := getOffsetFromNode_bound (j :: q) (cs.get ⟨i, h⟩)
                  hwc hp (by simp) off' hoff'
                have hrec := ih (cs.get ⟨i, h⟩) hwc hp (by simp) off' hoff'
                rw [gnfoGo_enter cs i h _ 0 0 (off' + 2) (by omega) (by omega)
                  (by rw [MNode.getElementLength]; omega)]
                have hcb : (cs.get ⟨i, h⟩).hasChildren ∧
                    (cs.get ⟨i, h⟩).childrenOf.length ≠ 0 := by
                  cases hg : cs.get ⟨i, h⟩ with
                  | leaf t l => rw [hg] at hp; simp [validPath] at hp
                  | branch t l cs' =>
                      rw [hg] at hp
                      rw [validPath] at hp
                      constructor
                      · simp [MNode.hasChildren]
                      · split at hp
                        case isTrue hj =>
                          simp only [MNode.childrenOf]
                          intro h0
                          omega
                        case isFalse => exact absurd hp (by simp)
                rw [if_pos hcb]
                have hone : off' + 2 - 1 = off' + 1 := by omega
                rw [hone, hrec]
                simp


/-- **C9 (counterexample).** In a document with two paragraphs, the second
paragraph's offset is 3 (its opening marker), and
`getNodeFromOffset(3)` — shallow or deep — returns the *document node* (the
loop's `offset == nodeOffset` case, all.js:2525), not the paragraph: the
round trip lands on the parent for every node, because `getOffsetFromNode`
yields the structural offset right before the node. -/
theorem getNodeFromOffset_at_own_offset_is_parent :
    wellSized (MNode.branch "document" 6
      [MNode.leaf "paragraph" 1, MNode.leaf "paragraph" 1]) = true ∧
    validPath (MNode.branch "document" 6
      [MNode.leaf "paragraph" 1, MNode.leaf "paragraph" 1]) [1] = true ∧
    getOffsetFromNode (MNode.branch "document" 6
      [MNode.leaf "paragraph" 1, MNode.leaf "paragraph" 1]) [1] = some 3 ∧
    getNodeFromOffset (MNode.branch "document" 6
      [MNode.leaf "paragraph" 1, MNode.leaf "paragraph" 1]) 3 false =
      some [] ∧
    getNodeFromOffset (MNode.branch "document" 6
      [MNode.leaf "paragraph" 1, MNode.leaf "paragraph" 1]) 3 true =
      some [] ∧
    (some [] : Option (List Nat)) ≠ some [1] := by
  refine ⟨?_, by decide, by decide, ?_, ?_, by decide⟩
  · simp [wellSized, MNode.getElementLength, MNode.getContentLength]
  · simp [getNodeFromOffset, getNodeFromOffset.gnfoGo, MNode.getElementLength,
      MNode.getContentLength]
  · simp [getNodeFromOffset, getNodeFromOffset.gnfoGo, MNode.getElementLength,
      MNode.getContentLength]

/-- Witness for C9 (amended) on the two-paragraph document: offset 3 + 1 = 4
retrieves the second paragraph. -/
theorem getNodeFromOffset_inverse_witness :
    wellSized (MNode.branch "document" 6
      [MNode.leaf "paragraph" 1, MNode.leaf "paragraph" 1]) = true ∧
    validPath (MNode.branch "document" 6
      [MNode.leaf "paragraph" 1, MNode.leaf "paragraph" 1]) [1] = true ∧
    getOffsetFromNode (MNode.branch "document" 6
      [MNode.leaf "paragraph" 1, MNode.leaf "paragraph" 1]) [1] = some 3 ∧
    getNodeFromOffset (MNode.branch "document" 6
      [MNode.leaf "paragraph" 1, MNode.leaf "paragraph" 1]) 4 false =
      some [1] := by
  have hw : wellSized (MNode.branch "document" 6
      [MNode.leaf "paragraph" 1, MNode.leaf "paragraph" 1]) = true := by
    simp [wellSized, MNode.getElementLength, MNode.getContentLength]
  exact ⟨hw, by decide, by decide,
    getNodeFromOffset_inverse [1]
      (MNode.branch "document" 6
        [MNode.leaf "paragraph" 1, MNode.leaf "paragraph" 1])
      hw (by decide) (by decide) 3 (by decide)⟩


theorem wellSized_branch_intro {ty : String} {len : Nat} {cs : List MNode}
    (h1 : len = (cs.map MNode.getElementLength).sum)
    (h2 : ∀ c ∈ cs, wellSized c = true) :
    wellSized (.branch ty len cs) = true := by
  rw [wellSized, Bool.and_eq_true]
  exact ⟨by simpa using h1,
    List.all_eq_true.mpr fun c _ => h2 c.1 c.2⟩

theorem push_wellSized {ty : String} {len : Nat} {cs : List MNode}
    {child : MNode} (hw : wellSized (.branch ty len cs) = true)
    (hc : wellSized child = true) :
    wellSized ((MNode.branch ty len cs).push child) = true ∧
      ((MNode.branch ty len cs).push child).getContentLength =
        len + child.getElementLength := by
  obtain ⟨hlen, hws⟩ := wellSized_branch hw
  rw [MNode.push]
  refine ⟨wellSized_branch_intro ?_ ?_, rfl⟩
  · rw [List.map_append, List.sum_append, hlen]
    simp
  · intro c hcm
    rcases List.mem_append.mp hcm with h | h
    · exact hws c h
    · rw [List.mem_singleton.mp h]
      exact hc

theorem unshift_wellSized {ty : String} {len : Nat} {cs : List MNode}
    {child : MNode} (hw : wellSized (.branch ty len cs) = true)
    (hc : wellSized child = true) :
    wellSized ((MNode.branch ty len cs).unshift child) = true ∧
      ((MNode.branch ty len cs).unshift child).getContentLength =
        len + child.getElementLength := by
  obtain ⟨hlen, hws⟩ := wellSized_branch hw
  rw [MNode.unshift]
  refine ⟨wellSized_branch_intro ?_ ?_, rfl⟩
  · rw [List.map_cons, List.sum_cons, hlen]
    omega
  · intro c hcm
    rcases List.mem_cons.mp hcm with h | h
    · rw [h]; exact hc
    · exact hws c h

theorem pop_wellSized {ty : String} {len : Nat} {cs : List MNode}
    (hw : wellSized (.branch ty len cs) = true) :
    ∃ n', (MNode.branch ty len cs).pop = some n' ∧ wellSized n' = true ∧
      n'.getContentLength + (cs.getLast?.elim 0 MNode.getElementLength) =
        len := by
  obtain ⟨hlen, hws⟩ := wellSized_branch hw
  rw [MNode.pop]
  cases hlast : cs.getLast? with
  | none =>
      refine ⟨MNode.branch ty len cs, rfl, hw, ?_⟩
      simp [MNode.getContentLength]
  | some last =>
      have hsplit : cs.dropLast ++ [last] = cs :=
        List.dropLast_append_getLast? last hlast
      have hsum : (cs.map MNode.getElementLength).sum =
          (cs.dropLast.map MNode.getElementLength).sum +
            last.getElementLength := by
        conv_lhs => rw [← hsplit]
        rw [List.map_append, List.sum_append]
        simp
      have hle : last.getElementLength ≤ len := by omega
      refine ⟨MNode.branch ty (len - last.getElementLength) cs.dropLast,
        ?_, wellSized_branch_intro (by omega) ?_, ?_⟩
      · show (if last.getElementLength ≤ len then
            some (MNode.branch ty (len - last.getElementLength) cs.dropLast)
          else none) = _
        rw [if_pos hle]
      · intro c hcm
        exact hws c ((List.dropLast_sublist cs).subset hcm)
      · simp only [MNode.getContentLength, Option.elim]
        omega

theorem shift_wellSized {ty : String} {len : Nat} {cs : List MNode}
    (hw : wellSized (.branch ty len cs) = true) :
    ∃ n', (MNode.branch ty len cs).shift = some n' ∧ wellSized n' = true ∧
      n'.getContentLength + (cs.head?.elim 0 MNode.getElementLength) =
        len := by
  obtain ⟨hlen, hws⟩ := wellSized_branch hw
  cases cs with
  | nil =>
      refine ⟨MNode.branch ty len [], rfl, hw, ?_⟩
      simp [MNode.getContentLength]
  | cons first rest =>
      simp only [List.map_cons, List.sum_cons] at hlen
      refine ⟨MNode.branch ty (len - first.getElementLength) rest,
        ?_, wellSized_branch_intro (by omega) ?_, ?_⟩
      · show (if first.getElementLength ≤ len then
            some (MNode.branch ty (len - first.getElementLength) rest)
          else none) = _
        rw [if_pos (by omega)]
      · intro c hcm
        exact hws c (List.mem_cons_of_mem _ hcm)
      · simp only [MNode.getContentLength, Option.elim, List.head?]
        omega

theorem splice_wellSized {ty : String} {len : Nat} {cs : List MNode}
    {index howmany : Nat} {news : List MNode}
    (hw : wellSized (.branch ty len cs) = true)
    (hn : ∀ c ∈ news, wellSized c = true) :
    ∃ n', (MNode.branch ty len cs).splice index howmany news = some n' ∧
      wellSized n' = true ∧
      (n'.getContentLength : Int) =
        (len : Int) + ((news.map MNode.getElementLength).sum : Int) -
          ((((cs.drop index).take howmany).map MNode.getElementLength).sum :
            Int) := by
  obtain ⟨hlen, hws⟩ := wellSized_branch hw
  have hrem : (((cs.drop index).take howmany).map MNode.getElementLength).sum +
      ((cs.drop (index + howmany)).map MNode.getElementLength).sum =
      ((cs.drop index).map MNode.getElementLength).sum := by
    conv_rhs => rw [← List.take_append_drop howmany (cs.drop index)]
    rw [List.map_append, List.sum_append, List.drop_drop]
  have htd : ((cs.take index).map MNode.getElementLength).sum +
      ((cs.drop index).map MNode.getElementLength).sum =
      (cs.map MNode.getElementLength).sum := by
    conv_rhs => rw [← List.take_append_drop index cs]
    rw [List.map_append, List.sum_append]
  have happ : ((cs.take index ++ news ++ cs.drop (index + howmany)).map
      MNode.getElementLength).sum =
      ((cs.take index).map MNode.getElementLength).sum +
        (news.map MNode.getElementLength).sum +
        ((cs.drop (index + howmany)).map MNode.getElementLength).sum := by
    rw [List.map_append, List.map_append, List.sum_append, List.sum_append]
  rw [MNode.splice]
  rw [if_pos (by omega)]
  refine ⟨_, rfl, wellSized_branch_intro ?_ ?_, ?_⟩
  · rw [happ]
    omega
  · intro c hcm
    rcases List.mem_append.mp hcm with h | h
    · rcases List.mem_append.mp h with h' | h'
      · exact hws c ((List.take_sublist _ _).subset h')
      · exact hn c h'
    · exact hws c ((List.drop_sublist _ _).subset h)
  · simp only [MNode.getContentLength]
    omega


theorem closeFrame_wellSized {f : BuildFrame} (h : frameOk f) :
    wellSized (closeFrame f) = true := by
  rw [closeFrame]
  split
  · simp [wellSized]
  · rename_i hlf
    have hb : f.isLeaf = false := by
      cases hb : f.isLeaf
      · rfl
      · exact absurd hb hlf
    exact wellSized_branch_intro (h.2 hb) h.1

theorem closeFrame_contentLength (f : BuildFrame) :
    (closeFrame f).getContentLength = f.len := by
  rw [closeFrame]
  split <;> rfl

/-- Frames of a `createNodesFromData` run keep `frameOk`; in particular every
node the run returns is well-sized. -/
theorem buildGo_wellSized :
    ∀ (N : Nat) (items : List Item) (cur : BuildFrame)
      (stack : List BuildFrame) (ns : List MNode),
      items.length ≤ N →
      structOk items cur.isLeaf (stack.map BuildFrame.isLeaf) = true →
      frameOk cur → (∀ f ∈ stack, frameOk f) →
      buildGo items cur stack = some ns →
      ∀ n ∈ ns, wellSized n = true := by
  intro N
  induction N with
  | zero =>
      intro items cur stack ns hlen hso hfc hfs hbg
      have hnil : items = [] := List.length_eq_zero.mp (Nat.le_zero.mp hlen)
      subst hnil
      rw [buildGo.eq_def] at hbg
      simp only [] at hbg
      injection hbg with hbg
      subst hbg
      exact hfc.1
  | succ N ih =>
      intro items cur stack ns hlen hso hfc hfs hbg
      match items with
      | [] =>
          rw [buildGo.eq_def] at hbg
          simp only [] at hbg
          injection hbg with hbg
          subst hbg
          exact hfc.1
      | Item.elem t attrs :: rest =>
          rw [buildGo.eq_def] at hbg
          simp only [] at hbg
          rw [structOk.eq_def] at hso
          simp only [] at hso
          by_cases hsl : isClosingType t
          · rw [if_pos hsl] at hbg hso
            cases stack with
            | nil => exact absurd hbg (by simp)
            | cons parent stack' =>
                replace hbg : buildGo rest
                    ⟨parent.ty, parent.isLeaf,
                      parent.len + (closeFrame cur).getElementLength,
                      parent.children ++ [closeFrame cur]⟩ stack' =
                    some ns := hbg
                replace hso : structOk rest parent.isLeaf
                    (stack'.map BuildFrame.isLeaf) = true := hso
                have hchild : wellSized (closeFrame cur) = true :=
                  closeFrame_wellSized hfc
                have hpar : frameOk parent := hfs parent (by simp)
                refine ih rest
                  ⟨parent.ty, parent.isLeaf,
                    parent.len + (closeFrame cur).getElementLength,
                    parent.children ++ [closeFrame cur]⟩ stack' ns
                  (by simp only [List.length_cons] at hlen; omega)
                  hso ⟨?_, ?_⟩
                  (fun f hf => hfs f (List.mem_cons_of_mem _ hf)) hbg
                · intro c hcm
                  rcases List.mem_append.mp hcm with h | h
                  · exact hpar.1 c h
                  · rw [List.mem_singleton.mp h]
                    exact hchild
                · intro hplf
                  simp only [List.map_append, List.sum_append, List.map_cons,
                    List.sum_cons, List.map_nil, List.sum_nil]
                  rw [hpar.2 hplf]
                  omega
          · rw [if_neg hsl] at hbg hso
            cases hnm : nodeModels t with
            | none =>
                rw [hnm] at hbg
                exact absurd hbg (by simp)
            | some isLf =>
                rw [hnm] at hbg hso
                rw [Bool.and_eq_true] at hso
                obtain ⟨hcl, hso⟩ := hso
                have hclf : cur.isLeaf = false := by
                  cases h : cur.isLeaf
                  · rfl
                  · rw [h] at hcl; exact absurd hcl (by simp)
                rw [hclf] at hbg hso
                simp only [Bool.false_eq_true, if_false] at hbg
                refine ih rest ⟨t, isLf, 0, []⟩ (cur :: stack) ns
                  (by simp only [List.length_cons] at hlen; omega)
                  (by simp only [List.map_cons, hclf]; exact hso)
                  ⟨by simp, fun _ => by simp⟩
                  (fun f hf => ?_) hbg
                rcases List.mem_cons.mp hf with h | h
                · rw [h]; exact hfc
                · exact hfs f h
      | Item.char c0 a0 :: rest =>
          rw [buildGo.eq_def] at hbg
          simp only [] at hbg
          rw [structOk.eq_def] at hso
          simp only [] at hso
          rw [Bool.and_eq_true] at hso
          obtain ⟨hcl, hso⟩ := hso
          replace hbg : buildGo (rest.dropWhile fun it => !it.isElement)
              ⟨cur.ty, cur.isLeaf,
                1 + (rest.takeWhile fun it => !it.isElement).length,
                cur.children⟩ stack = some ns := hbg
          refine ih (rest.dropWhile fun it => !it.isElement)
            ⟨cur.ty, cur.isLeaf,
              1 + (rest.takeWhile fun it => !it.isElement).length,
              cur.children⟩ stack ns
            (by
              have := dropWhile_len_le (fun it => !it.isElement) rest
              simp only [List.length_cons] at hlen
              omega) hso ⟨hfc.1, fun hlf => ?_⟩ hfs hbg
          rw [hlf] at hcl
          exact absurd hcl (by simp)

/-- `createNodesFromData` builds well-sized trees from structurally
well-formed data. -/
theorem createNodesFromData_wellSized {data : List Item} {ns : List MNode}
    (hso : structOk data false [] = true)
    (hbg : createNodesFromData data = some ns) :
    ∀ n ∈ ns, wellSized n = true :=
  buildGo_wellSized data.length data ⟨"", false, 0, []⟩ [] ns le_rfl hso
    ⟨by simp, fun _ => by simp⟩ (by simp) hbg


/-- **C2.** Every node's element length is its content length plus 2
(`getElementLength`, all.js:2069, for root and non-root alike); the trees
`createNodesFromData` builds from structurally well-formed data satisfy the
recursive length invariant (`wellSized`: every branch node's content length is
the sum of its children's element lengths), and every branch-node mutator —
`push`, `unshift`, `pop`, `shift`, `splice` — preserves `wellSized` while
adjusting the node's content length by exactly the net element-length delta
of the change (the parent chain adjustment of `adjustContentLength`,
all.js:2798/2819/2841/2864/2902). -/
theorem elementLength_invariant_and_mutators :
    (∀ n : MNode, n.getElementLength = n.getContentLength + 2) ∧
    (∀ (data : List Item) (ns : List MNode), structOk data false [] = true →
      createNodesFromData data = some ns → ∀ n ∈ ns, wellSized n = true) ∧
    (∀ (ty : String) (len : Nat) (cs : List MNode) (child : MNode),
      wellSized (.branch ty len cs) = true → wellSized child = true →
      wellSized ((MNode.branch ty len cs).push child) = true ∧
      ((MNode.branch ty len cs).push child).getContentLength =
        len + child.getElementLength) ∧
    (∀ (ty : String) (len : Nat) (cs : List MNode) (child : MNode),
      wellSized (.branch ty len cs) = true → wellSized child = true →
      wellSized ((MNode.branch ty len cs).unshift child) = true ∧
      ((MNode.branch ty len cs).unshift child).getContentLength =
        len + child.getElementLength) ∧
    (∀ (ty : String) (len : Nat) (cs : List MNode),
      wellSized (.branch ty len cs) = true →
      ∃ n', (MNode.branch ty len cs).pop = some n' ∧ wellSized n' = true ∧
        n'.getContentLength + (cs.getLast?.elim 0 MNode.getElementLength) =
          len) ∧
    (∀ (ty : String) (len : Nat) (cs : List MNode),
      wellSized (.branch ty len cs) = true →
      ∃ n', (MNode.branch ty len cs).shift = some n' ∧ wellSized n' = true ∧
        n'.getContentLength + (cs.head?.elim 0 MNode.getElementLength) =
          len) ∧
    (∀ (ty : String) (len : Nat) (cs : List MNode) (index howmany : Nat)
      (news : List MNode),
      wellSized (.branch ty len cs) = true →
      (∀ c ∈ news, wellSized c = true) →
      ∃ n', (MNode.branch ty len cs).splice index howmany news = some n' ∧
        wellSized n' = true ∧
        (n'.getContentLength : Int) =
          (len : Int) + ((news.map MNode.getElementLength).sum : Int) -
            ((((cs.drop index).take howmany).map MNode.getElementLength).sum :
              Int)) :=
  ⟨fun _ => rfl,
    fun _ _ hso hbg => createNodesFromData_wellSized hso hbg,
    fun _ _ _ _ hw hc => push_wellSized hw hc,
    fun _ _ _ _ hw hc => unshift_wellSized hw hc,
    fun _ _ _ hw => pop_wellSized hw,
    fun _ _ _ hw => shift_wellSized hw,
    fun _ _ _ _ _ _ hw hn => splice_wellSized hw hn⟩

/-- Witness for C2: the single-paragraph document builds a well-sized tree,
and push/pop on a concrete branch node keep the invariant. -/
theorem elementLength_invariant_and_mutators_witness :
    structOk [Item.elem "paragraph" none, Item.char 'a' [],
      Item.elem "/paragraph" none] false [] = true ∧
    createNodesFromData [Item.elem "paragraph" none, Item.char 'a' [],
      Item.elem "/paragraph" none] = some [MNode.leaf "paragraph" 1] ∧
    wellSized (MNode.branch "list" 3 [MNode.leaf "listItem" 1]) = true ∧
    wellSized (MNode.leaf "paragraph" 2) = true ∧
    (wellSized ((MNode.branch "list" 3 [MNode.leaf "listItem" 1]).push
      (MNode.leaf "paragraph" 2)) = true ∧
      ((MNode.branch "list" 3 [MNode.leaf "listItem" 1]).push
        (MNode.leaf "paragraph" 2)).getContentLength = 3 + 4) ∧
    (∃ n', (MNode.branch "list" 3 [MNode.leaf "listItem" 1]).pop = some n' ∧
      wellSized n' = true ∧
      n'.getContentLength +
        (([MNode.leaf "listItem" 1].getLast?).elim 0
          MNode.getElementLength) = 3) := by
  have e1 : isClosingType "paragraph" = false := by decide
  have e2 : isClosingType "/paragraph" = true := by decide
  have e3 : nodeModels "paragraph" = some true := by decide
  have hso : structOk [Item.elem "paragraph" none, Item.char 'a' [],
      Item.elem "/paragraph" none] false [] = true := by
    rw [structOk.eq_def]
    simp only [e1, e3, Bool.false_eq_true, if_false, Bool.not_false,
      Bool.true_and]
    rw [structOk.eq_def]
    simp only [List.dropWhile, Item.isElement, Bool.not_true, Bool.not_false,
      Bool.true_and]
    rw [structOk.eq_def]
    simp only [e2, if_true]
    rw [structOk.eq_def]
  have hbg : createNodesFromData [Item.elem "paragraph" none,
      Item.char 'a' [], Item.elem "/paragraph" none] =
      some [MNode.leaf "paragraph" 1] := by
    rw [createNodesFromData, buildGo.eq_def]
    simp only [e1, e3, Bool.false_eq_true, if_false]
    rw [buildGo.eq_def]
    simp only [List.takeWhile, List.dropWhile, Item.isElement, Bool.not_true,
      Bool.not_false, List.length_nil]
    rw [buildGo.eq_def]
    simp only [e2, if_true]
    rw [buildGo.eq_def]
    simp [closeFrame]
  have hw1 : wellSized (MNode.branch "list" 3 [MNode.leaf "listItem" 1]) =
      true := by
    simp [wellSized, MNode.getElementLength, MNode.getContentLength]
  have hw2 : wellSized (MNode.leaf "paragraph" 2) = true := by
    simp [wellSized]
  refine ⟨hso, hbg, hw1, hw2, ?_, ?_⟩
  · have h := elementLength_invariant_and_mutators.2.2.1 "list" 3
      [MNode.leaf "listItem" 1] (MNode.leaf "paragraph" 2) hw1 hw2
    exact ⟨h.1, by rw [h.2]; rfl⟩
  · exact elementLength_invariant_and_mutators.2.2.2.2.1 "list" 3
      [MNode.leaf "listItem" 1] hw1


mutual

/-- In-bounds ranges make `selectNodes` return without throwing. -/
theorem selectNodesGo_some (n : MNode) (start endo offset : Int)
    (shallow : Bool) (pfx : List Nat) (hw : wellSized n = true)
    (hbr : n.hasChildren = true) (h0 : 0 ≤ start) (hse : start ≤ endo)
    (hend : endo ≤ (n.getContentLength : Int)) :
    ∃ es, selectNodesGo n start endo shallow offset pfx = some es := by
  cases n with
  | leaf ty len => simp [MNode.hasChildren] at hbr
  | branch ty len cs =>
      rw [selectNodesGo.eq_def]
      rw [if_neg (by omega)]
      simp only []
      obtain ⟨hlen, hws⟩ := wellSized_branch hw
      cases cs with
      | nil =>
          rw [if_pos (by simp)]
          rw [if_neg (by
            simp only [MNode.getContentLength] at hend ⊢
            omega)]
          exact ⟨_, rfl⟩
      | cons c rest =>
          rw [if_neg (by simp)]
          refine selectNodesLoop_some (c :: rest) start endo offset 1 shallow
            pfx 0 [] hws h0 hse ?_ (by simp)
          simp only [MNode.getContentLength] at hend
          rw [hlen] at hend
          push_cast at hend ⊢
          omega

/-- The loop part of `selectNodesGo_some`: `endo` lies before the end of the
remaining children's span. -/
theorem selectNodesLoop_some (cs : List MNode)
    (start endo offset left : Int) (shallow : Bool) (pfx : List Nat)
    (idx : Nat) (acc : List SNEntry)
    (hws : ∀ c ∈ cs, wellSized c = true) (h0 : 0 ≤ start)
    (hse : start ≤ endo)
    (hend : endo + 1 ≤ left + ((cs.map MNode.getElementLength).sum : Int))
    (hne : cs ≠ []) :
    ∃ es, selectNodesLoop cs start endo shallow offset pfx idx left acc =
      some es := by
  cases cs with
  | nil => exact absurd rfl hne
  | cons childNode rest =>
      rw [selectNodesLoop.eq_def]
      simp only []
      by_cases hbr0 : start = endo ∧
          (start = left - 1 ∨ start = left + ↑childNode.getContentLength + 1)
      · rw [if_pos hbr0]
        exact ⟨_, rfl⟩
      · rw [if_neg hbr0]
        have helem : (childNode.getElementLength : Int) =
            (childNode.getContentLength : Int) + 2 := by
          rw [MNode.getElementLength]
          push_cast
          ring
        have hrest : endo + 1 ≤ (left + ↑childNode.getContentLength + 2) +
            ((rest.map MNode.getElementLength).sum : Int) := by
          simp only [List.map_cons, List.sum_cons] at hend
          push_cast at hend
          push_cast
          omega
        by_cases hin : (left ≤ start ∧ start ≤ left + ↑childNode.getContentLength) ∧
            (left ≤ endo ∧ endo ≤ left + ↑childNode.getContentLength)
        · rw [if_pos hin]
          by_cases hsh : shallow = true ∨ ¬childNode.hasChildren = true
          · rw [if_pos hsh]
            exact ⟨_, rfl⟩
          · rw [if_neg hsh]
            push_neg at hsh
            exact selectNodesGo_some childNode (start - left) (endo - left)
              (left + offset) false (pfx ++ [idx])
              (hws childNode (by simp))
              hsh.2 (by omega) (by omega) (by omega)
        · rw [if_neg hin]
          by_cases hsi : left ≤ start ∧ start ≤ left + ↑childNode.getContentLength
          · rw [if_pos hsi]
            have hinner : ∃ acc', (if shallow = true ∨ ¬childNode.hasChildren = true then
                some (acc ++ [⟨pfx ++ [idx],
                  some (start - left, left + ↑childNode.getContentLength - left),
                  (start + offset, left + ↑childNode.getContentLength + offset)⟩])
              else
                (selectNodesGo childNode (start - left)
                  (left + ↑childNode.getContentLength - left) false
                  (left + offset) (pfx ++ [idx])).map (acc ++ ·)) = some acc' := by
              by_cases hsh : shallow = true ∨ ¬childNode.hasChildren = true
              · rw [if_pos hsh]; exact ⟨_, rfl⟩
              · rw [if_neg hsh]
                push_neg at hsh
                obtain ⟨sub, hsub⟩ := selectNodesGo_some childNode
                  (start - left) (left + ↑childNode.getContentLength - left)
                  (left + offset) false (pfx ++ [idx])
                  (hws childNode (by simp))
                  hsh.2 (by omega) (by omega) (by omega)
                rw [hsub]
                exact ⟨_, rfl⟩
            obtain ⟨acc', hacc'⟩ := hinner
            rw [hacc']
            simp only [Option.some_bind]
            by_cases hlt : endo < left + ↑childNode.getContentLength + 2
            · rw [if_pos hlt]
              exact ⟨_, rfl⟩
            · rw [if_neg hlt]
              have hrne : rest ≠ [] := by
                intro h
                subst h
                simp only [List.map_nil, List.sum_nil, Int.natCast_zero,
                  add_zero] at hrest
                omega
              refine selectNodesLoop_some rest start endo offset
                (left + ↑childNode.getContentLength + 2) shallow pfx (idx + 1)
                acc' (fun c hc => hws c (by simp [hc])) h0 hse ?_ hrne
              push_cast at hrest ⊢
              omega
          · rw [if_neg hsi]
            by_cases hei : left ≤ endo ∧ endo ≤ left + ↑childNode.getContentLength
            · rw [if_pos hei]
              by_cases hsh : shallow = true ∨ ¬childNode.hasChildren = true
              · rw [if_pos hsh]
                exact ⟨_, rfl⟩
              · rw [if_neg hsh]
                push_neg at hsh
                obtain ⟨sub, hsub⟩ := selectNodesGo_some childNode 0
                  (endo - left) (left + offset) false (pfx ++ [idx])
                  (hws childNode (by simp))
                  hsh.2 le_rfl (by omega) (by omega)
                rw [hsub]
                exact ⟨_, rfl⟩
            · rw [if_neg hei]
              by_cases her : endo = left + ↑childNode.getContentLength + 1
              · rw [if_pos her]
                exact ⟨_, rfl⟩
              · rw [if_neg her]
                by_cases hlt : endo < left + ↑childNode.getContentLength + 2
                · rw [if_pos hlt]
                  exact ⟨_, rfl⟩
                · rw [if_neg hlt]
                  have hrne : rest ≠ [] := by
                    intro h
                    subst h
                    simp only [List.map_nil, List.sum_nil, Int.natCast_zero,
                      add_zero] at hrest
                    omega
                  refine selectNodesLoop_some rest start endo offset
                    (left + ↑childNode.getContentLength + 2) shallow pfx
                    (idx + 1) _ (fun c hc => hws c (by simp [hc])) h0 hse ?_
                    hrne
                  push_cast at hrest ⊢
                  omega

end


/-- A range reaching past the remaining children's span makes the
`selectNodes` child loop fall through to the trailing `throw`. -/
theorem selectNodesLoop_pastEnd_none :
    ∀ (cs : List MNode) (start endo offset left : Int) (shallow : Bool)
      (pfx : List Nat) (idx : Nat) (acc : List SNEntry),
      (∀ c ∈ cs, wellSized c = true) → 0 ≤ start →
      left + ((cs.map MNode.getElementLength).sum : Int) ≤ endo →
      selectNodesLoop cs start endo shallow offset pfx idx left acc =
        none := by
  intro cs
  induction cs with
  | nil =>
      intro start endo offset left shallow pfx idx acc _ _ _
      rw [selectNodesLoop.eq_def]
  | cons childNode rest ih =>
      intro start endo offset left shallow pfx idx acc hws h0 hpast
      have helem : (childNode.getElementLength : Int) =
          (childNode.getContentLength : Int) + 2 := by
        rw [MNode.getElementLength]
        push_cast
        ring
      have hsum : ((childNode :: rest).map MNode.getElementLength).sum =
          childNode.getElementLength +
            (rest.map MNode.getElementLength).sum := by
        simp
      rw [hsum, Nat.cast_add] at hpast
      rw [helem] at hpast
      have hrB : left + ↑childNode.getContentLength + 2 +
          ((rest.map MNode.getElementLength).sum : Int) ≤ endo := by
        omega
      have hright : left + ↑childNode.getContentLength + 1 < endo := by
        have hnn : (0 : Int) ≤ ((rest.map MNode.getElementLength).sum : Int) :=
          Int.natCast_nonneg _
        omega
      rw [selectNodesLoop.eq_def]
      simp only []
      rw [if_neg (by
        rintro ⟨he, hd⟩
        rcases hd with hd | hd <;> omega)]
      rw [if_neg (by
        rintro ⟨-, -, he⟩
        omega)]
      by_cases hsi : left ≤ start ∧ start ≤ left + ↑childNode.getContentLength
      · rw [if_pos hsi]
        have hinner : ∃ acc', (if shallow = true ∨ ¬childNode.hasChildren = true then
            some (acc ++ [⟨pfx ++ [idx],
              some (start - left, left + ↑childNode.getContentLength - left),
              (start + offset, left + ↑childNode.getContentLength + offset)⟩])
          else
            (selectNodesGo childNode (start - left)
              (left + ↑childNode.getContentLength - left) false
              (left + offset) (pfx ++ [idx])).map (acc ++ ·)) = some acc' := by
          by_cases hsh : shallow = true ∨ ¬childNode.hasChildren = true
          · rw [if_pos hsh]; exact ⟨_, rfl⟩
          · rw [if_neg hsh]
            push_neg at hsh
            obtain ⟨sub, hsub⟩ := selectNodesGo_some childNode
              (start - left) (left + ↑childNode.getContentLength - left)
              (left + offset) false (pfx ++ [idx])
              (hws childNode (by simp))
              hsh.2 (by omega) (by omega) (by omega)
            rw [hsub]
            exact ⟨_, rfl⟩
        obtain ⟨acc', hacc'⟩ := hinner
        rw [hacc']
        simp only [Option.some_bind]
        rw [if_neg (by omega)]
        exact ih start endo offset _ shallow pfx (idx + 1) acc'
          (fun c hc => hws c (by simp [hc])) h0 (by omega)
      · rw [if_neg hsi]
        rw [if_neg (by rintro ⟨-, he⟩; omega)]
        rw [if_neg (by omega)]
        rw [if_neg (by omega)]
        exact ih start endo offset _ shallow pfx (idx + 1) _
          (fun c hc => hws c (by simp [hc])) h0 (by omega)

/-- A range whose end lies past the node's content makes `selectNodes`
throw. -/
theorem selectNodesGo_pastEnd_none (n : MNode) (start endo offset : Int)
    (shallow : Bool) (pfx : List Nat) (hw : wellSized n = true)
    (hbr : n.hasChildren = true) (h0 : 0 ≤ start)
    (hpast : (n.getContentLength : Int) < endo) :
    selectNodesGo n start endo shallow offset pfx = none := by
  cases n with
  | leaf ty len => simp [MNode.hasChildren] at hbr
  | branch ty len cs =>
      rw [selectNodesGo.eq_def]
      rw [if_neg (by omega)]
      simp only []
      obtain ⟨hlen, hws⟩ := wellSized_branch hw
      cases cs with
      | nil =>
          rw [if_pos (by simp)]
          rw [if_pos (by
            simp only [MNode.getContentLength] at hpast ⊢
            omega)]
      | cons c rest =>
          rw [if_neg (by simp)]
          refine selectNodesLoop_pastEnd_none (c :: rest) start endo offset 1
            shallow pfx 0 [] hws h0 ?_
          simp only [MNode.getContentLength] at hpast
          rw [hlen] at hpast
          push_cast at hpast ⊢
          omega

/-- **C7.** `selectNodes(range)` throws for every range whose normalized
start is negative, and throws for every range whose normalized end extends
past the end of the node's content; for ranges within bounds it returns
without throwing. -/
theorem selectNodes_bounds (n : MNode) (r : ESRange) (shallow : Bool)
    (hw : wellSized n = true) (hbr : n.hasChildren = true) :
    (r.start < 0 → selectNodes n r shallow = none) ∧
    (0 ≤ r.start → (n.getContentLength : Int) < r.endPos →
      selectNodes n r shallow = none) ∧
    (0 ≤ r.start → r.endPos ≤ (n.getContentLength : Int) →
      ∃ es, selectNodes n r shallow = some es) := by
  refine ⟨?_, ?_, ?_⟩
  · intro hneg
    rw [selectNodes, selectNodesGo.eq_def, if_pos hneg]
  · intro h0 hpast
    exact selectNodesGo_pastEnd_none n r.start r.endPos 0 shallow [] hw hbr
      h0 hpast
  · intro h0 hend
    exact selectNodesGo_some n r.start r.endPos 0 shallow [] hw hbr h0
      (min_le_max) hend

/-- Witness for C7 on the two-paragraph document. -/
theorem selectNodes_bounds_witness :
    (selectNodes (MNode.branch "document" 6
      [MNode.leaf "paragraph" 1, MNode.leaf "paragraph" 1])
      ⟨-1, 2⟩ false = none) ∧
    (selectNodes (MNode.branch "document" 6
      [MNode.leaf "paragraph" 1, MNode.leaf "paragraph" 1])
      ⟨1, 7⟩ false = none) ∧
    (∃ es, selectNodes (MNode.branch "document" 6
      [MNode.leaf "paragraph" 1, MNode.leaf "paragraph" 1])
      ⟨1, 5⟩ false = some es) := by
  have hw : wellSized (MNode.branch "document" 6
      [MNode.leaf "paragraph" 1, MNode.leaf "paragraph" 1]) = true := by
    simp [wellSized, MNode.getElementLength, MNode.getContentLength]
  refine ⟨?_, ?_, ?_⟩
  · exact (selectNodes_bounds (MNode.branch "document" 6
      [MNode.leaf "paragraph" 1, MNode.leaf "paragraph" 1]) ⟨-1, 2⟩ false hw
      (by decide)).1 (by decide)
  · exact (selectNodes_bounds (MNode.branch "document" 6
      [MNode.leaf "paragraph" 1, MNode.leaf "paragraph" 1]) ⟨1, 7⟩ false hw
      (by decide)).2.1 (by decide) (by decide)
  · exact (selectNodes_bounds (MNode.branch "document" 6
      [MNode.leaf "paragraph" 1, MNode.leaf "paragraph" 1]) ⟨1, 5⟩ false hw
      (by decide)).2.2 (by decide) (by decide)


/-- **C6.** `prepareRemoval(range)` applied to an empty range
(`range.start === range.end`) returns a transaction containing exactly one
retain operation covering the entire linear data array, so committing it
leaves the document unchanged. -/
theorem prepareRemoval_empty_range (docData : List Item) (root : MNode)
    (r : ESRange) (h : r.start = r.endPos) :
    ∃ tx, prepareRemoval docData root r = some tx ∧
      tx.operations = [Op.retain docData.length] ∧
      commitData docData tx = some docData := by
  refine ⟨TxModel.empty.pushRetain docData.length, ?_, ?_, ?_⟩
  · rw [prepareRemoval, if_pos h]
  · simp [TxModel.pushRetain, TxModel.empty]
  · simp [commitData, TxModel.pushRetain, TxModel.empty, processOps,
      map_applyAnns_nil]

/-- Witness for C6 on a one-paragraph document and the empty range (2, 2). -/
theorem prepareRemoval_empty_range_witness :
    ∃ tx, prepareRemoval
        [Item.elem "paragraph" none, Item.char 'a' [],
          Item.elem "/paragraph" none]
        (MNode.branch "document" 3 [MNode.leaf "paragraph" 1])
        ⟨2, 2⟩ = some tx ∧
      tx.operations = [Op.retain 3] ∧
      commitData
        [Item.elem "paragraph" none, Item.char 'a' [],
          Item.elem "/paragraph" none] tx = some
        [Item.elem "paragraph" none, Item.char 'a' [],
          Item.elem "/paragraph" none] :=
  prepareRemoval_empty_range _ _ _ (by decide)


/-- Concrete evaluation of `selectNodes` on a paragraph-then-pre document
with the range (1, 5). -/
theorem selectNodes_twoLeaf :
    selectNodes (MNode.branch "document" 6
      [MNode.leaf "paragraph" 1, MNode.leaf "pre" 1]) ⟨1, 5⟩ false =
    some [⟨[0], some (0, 1), (1, 2)⟩, ⟨[1], some (0, 1), (4, 5)⟩] := by
  rw [selectNodes, selectNodesGo.eq_def]
  norm_num [ESRange.start, ESRange.endPos]
  rw [selectNodesLoop.eq_def]
  norm_num [MNode.getContentLength, MNode.hasChildren]
  rw [selectNodesLoop.eq_def]
  norm_num [MNode.getContentLength, MNode.hasChildren]

/-- Fidelity of the merge validation at commit: removing
`['a','/paragraph','pre','b']` at cursor 1 from
`[paragraph,'a',/paragraph, pre,'b',/pre]` crosses the paragraph/pre
boundary, so `TransactionProcessor.remove` throws `Removal is not a valid
merge` (all.js:930-941); correspondingly `removeOk` is false, the commit of
`retain 1, remove, retain 1` returns `none`, and the transaction is not
valid. -/
theorem remove_invalid_merge_throws :
    removeOk
      [Item.elem "paragraph" none, Item.char 'a' [],
        Item.elem "/paragraph" none, Item.elem "pre" none,
        Item.char 'b' [], Item.elem "/pre" none] 1
      [Item.char 'a' [], Item.elem "/paragraph" none,
        Item.elem "pre" none, Item.char 'b' []] = false ∧
    commitData
      [Item.elem "paragraph" none, Item.char 'a' [],
        Item.elem "/paragraph" none, Item.elem "pre" none,
        Item.char 'b' [], Item.elem "/pre" none]
      ⟨[Op.retain 1, Op.remove [Item.char 'a' [],
        Item.elem "/paragraph" none, Item.elem "pre" none,
        Item.char 'b' []], Op.retain 1], -4⟩ = none ∧
    validTx
      [Item.elem "paragraph" none, Item.char 'a' [],
        Item.elem "/paragraph" none, Item.elem "pre" none,
        Item.char 'b' [], Item.elem "/pre" none]
      ⟨[Op.retain 1, Op.remove [Item.char 'a' [],
        Item.elem "/paragraph" none, Item.elem "pre" none,
        Item.char 'b' []], Op.retain 1], -4⟩ = false := by
  have e1 : isClosingType "paragraph" = false := by decide
  have e1' : isClosingType "pre" = false := by decide
  have e2 : isClosingType "/paragraph" = true := by decide
  have e2' : isClosingType "/pre" = true := by decide
  have e3 : nodeModels "paragraph" = some true := by decide
  have e3' : nodeModels "pre" = some true := by decide
  have hbg : createNodesFromData
      [Item.elem "paragraph" none, Item.char 'a' [],
        Item.elem "/paragraph" none, Item.elem "pre" none,
        Item.char 'b' [], Item.elem "/pre" none] =
      some [MNode.leaf "paragraph" 1, MNode.leaf "pre" 1] := by
    rw [createNodesFromData, buildGo.eq_def]
    simp only [e1, e3, Bool.false_eq_true, if_false]
    rw [buildGo.eq_def]
    simp only [List.takeWhile, List.dropWhile, Item.isElement, Bool.not_true,
      Bool.not_false, List.length_nil]
    rw [buildGo.eq_def]
    simp only [e2, if_true]
    rw [buildGo.eq_def]
    simp only [e1', e3', Bool.false_eq_true, if_false]
    rw [buildGo.eq_def]
    simp only [List.takeWhile, List.dropWhile, Item.isElement, Bool.not_true,
      Bool.not_false, List.length_nil]
    rw [buildGo.eq_def]
    simp only [e2', if_true]
    rw [buildGo.eq_def]
    simp [closeFrame, MNode.getElementLength, MNode.getContentLength]
  have hdr : docRoot
      [Item.elem "paragraph" none, Item.char 'a' [],
        Item.elem "/paragraph" none, Item.elem "pre" none,
        Item.char 'b' [], Item.elem "/pre" none] =
      some (MNode.branch "document" 6
        [MNode.leaf "paragraph" 1, MNode.leaf "pre" 1]) := by
    rw [docRoot, hbg]
    rfl
  have hro : removeOk
      [Item.elem "paragraph" none, Item.char 'a' [],
        Item.elem "/paragraph" none, Item.elem "pre" none,
        Item.char 'b' [], Item.elem "/pre" none] 1
      [Item.char 'a' [], Item.elem "/paragraph" none,
        Item.elem "pre" none, Item.char 'b' []] = false := by
    rw [removeOk, if_pos (by decide : containsElementData
      [Item.char 'a' [], Item.elem "/paragraph" none,
        Item.elem "pre" none, Item.char 'b' []] = true), hdr]
    simp only []
    norm_num [List.length_cons, List.length_nil]
    rw [selectNodes_twoLeaf]
    decide
  refine ⟨hro, ?_, ?_⟩
  · simp only [commitData, processOps, List.take_succ_cons, List.take_zero,
      List.drop_succ_cons, List.drop_zero, List.map_cons, List.map_nil,
      applyAnns, List.nil_append, List.singleton_append, List.length_cons,
      List.length_nil, hro, Bool.false_eq_true, if_false, Option.map_none']
  · simp only [validTx, validOps, List.take_succ_cons, List.take_zero,
      List.drop_succ_cons, List.drop_zero, List.map_cons, List.map_nil,
      applyAnns, List.nil_append, List.singleton_append, List.length_cons,
      List.length_nil, hro, Bool.and_false, Bool.false_and]

/-- C3 counterexample: on `[paragraph, 'a', /paragraph, pre, 'b', /pre]` with
range (1, 5), the first and last touched nodes (the paragraph and the pre)
are not mergeable, yet `prepareRemoval` does not throw: it returns the
per-node transaction `retain 1, remove 'a', retain 2, remove 'b', retain 1`,
with no re-synthesized open/close markers (no insert operation) and no
failure.  The merge-boundary marker synthesis and its throws live in
`es.TransactionProcessor.prototype.remove`, which runs at commit time. -/
theorem prepareRemoval_nonMergeable_returns :
    canMerge (MNode.branch "document" 6
      [MNode.leaf "paragraph" 1, MNode.leaf "pre" 1]) [0] [1] = false ∧
    selectNodes (MNode.branch "document" 6
      [MNode.leaf "paragraph" 1, MNode.leaf "pre" 1]) ⟨1, 5⟩ false =
      some [⟨[0], some (0, 1), (1, 2)⟩, ⟨[1], some (0, 1), (4, 5)⟩] ∧
    prepareRemoval
      [Item.elem "paragraph" none, Item.char 'a' [],
        Item.elem "/paragraph" none, Item.elem "pre" none,
        Item.char 'b' [], Item.elem "/pre" none]
      (MNode.branch "document" 6
        [MNode.leaf "paragraph" 1, MNode.leaf "pre" 1]) ⟨1, 5⟩ =
      some ⟨[Op.retain 1, Op.remove [Item.char 'a' []], Op.retain 2,
        Op.remove [Item.char 'b' []], Op.retain 1], -2⟩ := by
  refine ⟨by decide, selectNodes_twoLeaf, ?_⟩
  rw [prepareRemoval, if_neg (by decide), selectNodes_twoLeaf]
  decide

/-- `pushRetain` keeps an operation list made of retains and removes only. -/
theorem pushRetain_shape (tx : TxModel) (n : Nat)
    (h : ∀ op ∈ tx.operations,
      (∃ k, op = Op.retain k) ∨ (∃ d, op = Op.remove d)) :
    ∀ op ∈ (tx.pushRetain n).operations,
      (∃ k, op = Op.retain k) ∨ (∃ d, op = Op.remove d) := by
  intro op hop
  rw [TxModel.pushRetain] at hop
  rcases hcase : tx.operations.getLast? with - | o
  · rw [hcase] at hop
    simp only [List.mem_append, List.mem_singleton] at hop
    rcases hop with hop | hop
    · exact h op hop
    · exact Or.inl ⟨n, hop⟩
  · rw [hcase] at hop
    cases o with
    | retain m =>
        simp only [List.mem_append, List.mem_singleton] at hop
        rcases hop with hop | hop
        · exact h op ((List.dropLast_sublist tx.operations).subset hop)
        · exact Or.inl ⟨m + n, hop⟩
    | insert d =>
        simp only [List.mem_append, List.mem_singleton] at hop
        rcases hop with hop | hop
        · exact h op hop
        · exact Or.inl ⟨n, hop⟩
    | remove d =>
        simp only [List.mem_append, List.mem_singleton] at hop
        rcases hop with hop | hop
        · exact h op hop
        · exact Or.inl ⟨n, hop⟩
    | attr m k v =>
        simp only [List.mem_append, List.mem_singleton] at hop
        rcases hop with hop | hop
        · exact h op hop
        · exact Or.inl ⟨n, hop⟩
    | annotate m b a =>
        simp only [List.mem_append, List.mem_singleton] at hop
        rcases hop with hop | hop
        · exact h op hop
        · exact Or.inl ⟨n, hop⟩

/-- `pushRemove` keeps an operation list made of retains and removes only. -/
theorem pushRemove_shape (tx : TxModel) (data : List Item)
    (h : ∀ op ∈ tx.operations,
      (∃ k, op = Op.retain k) ∨ (∃ d, op = Op.remove d)) :
    ∀ op ∈ (tx.pushRemove data).operations,
      (∃ k, op = Op.retain k) ∨ (∃ d, op = Op.remove d) := by
  intro op hop
  rw [TxModel.pushRemove] at hop
  rcases hcase : tx.operations.getLast? with - | o
  · rw [hcase] at hop
    simp only [List.mem_append, List.mem_singleton] at hop
    rcases hop with hop | hop
    · exact h op hop
    · exact Or.inr ⟨data, hop⟩
  · rw [hcase] at hop
    cases o with
    | retain m =>
        simp only [List.mem_append, List.mem_singleton] at hop
        rcases hop with hop | hop
        · exact h op hop
        · exact Or.inr ⟨data, hop⟩
    | insert d =>
        simp only [List.mem_append, List.mem_singleton] at hop
        rcases hop with hop | hop
        · exact h op hop
        · exact Or.inr ⟨data, hop⟩
    | remove d =>
        simp only [List.mem_append, List.mem_singleton] at hop
        rcases hop with hop | hop
        · exact h op ((List.dropLast_sublist tx.operations).subset hop)
        · exact Or.inr ⟨d ++ data, hop⟩
    | attr m k v =>
        simp only [List.mem_append, List.mem_singleton] at hop
        rcases hop with hop | hop
        · exact h op hop
        · exact Or.inr ⟨data, hop⟩
    | annotate m b a =>
        simp only [List.mem_append, List.mem_singleton] at hop
        rcases hop with hop | hop
        · exact h op hop
        · exact Or.inr ⟨data, hop⟩

/-- The per-node removal loop keeps the retain/remove-only shape. -/
theorem removalFoldAux_shape (docData : List Item) :
    ∀ (entries : List SNEntry) (st : TxModel × Int),
      (∀ op ∈ st.1.operations,
        (∃ k, op = Op.retain k) ∨ (∃ d, op = Op.remove d)) →
      ∀ op ∈ (entries.foldl (removalStep docData) st).1.operations,
        (∃ k, op = Op.retain k) ∨ (∃ d, op = Op.remove d) := by
  intro entries
  induction entries with
  | nil => intro st h; exact h
  | cons e rest ih =>
      intro st h
      rw [List.foldl_cons]
      refine ih _ ?_
      rw [removalStep]
      by_cases h1 : e.globalRange.1 > st.2
      · rw [if_pos h1]
        by_cases h2 : |e.globalRange.1 - e.globalRange.2| ≠ 0
        · rw [if_pos h2]
          exact pushRemove_shape _ _ (pushRetain_shape _ _ h)
        · rw [if_neg h2]
          exact pushRetain_shape _ _ h
      · rw [if_neg h1]
        by_cases h2 : |e.globalRange.1 - e.globalRange.2| ≠ 0
        · rw [if_pos h2]
          exact pushRemove_shape _ _ h
        · rw [if_neg h2]
          exact h

/-- **C3.** For a non-empty range whose first and last touched nodes are not
mergeable, `prepareRemoval` takes the per-node branch: it returns (without
throwing) the transaction produced by folding the per-node removal loop over
the `selectNodes` entries in order, and that transaction consists of retain
and remove operations only — no open/close markers are re-synthesized here
and no common-ancestor/depth/type failure can occur here; the boundary-marker
synthesis and its throws belong to `es.TransactionProcessor.prototype.remove`
at commit time. -/
theorem prepareRemoval_nonMergeable_per_node (docData : List Item)
    (root : MNode) (r : ESRange) (entries : List SNEntry)
    (hne : ¬ r.start = r.endPos)
    (hsel : selectNodes root r false = some entries)
    (hmerge : ∀ first last, entries.head? = some first →
      entries.getLast? = some last →
      canMerge root first.path last.path = false) :
    prepareRemoval docData root r = some (removalFold docData entries) ∧
    ∀ op ∈ (removalFold docData entries).operations,
      (∃ k, op = Op.retain k) ∨ (∃ d, op = Op.remove d) := by
  constructor
  · cases entries with
    | nil =>
        rw [prepareRemoval, if_neg hne, hsel]
        rfl
    | cons e rest =>
        rw [prepareRemoval, if_neg hne, hsel]
        have hl : (e :: rest).getLast? =
            some ((e :: rest).getLast (by simp)) :=
          List.getLast?_eq_getLast _ _
        simp only [Option.map_some', List.head?_cons]
        rw [hl]
        simp only []
        simp only [hmerge e _ rfl hl, Bool.false_eq_true, if_false]
  · simp only [removalFold]
    by_cases hfin : ((List.foldl (removalStep docData)
        (TxModel.empty, 0) entries).2 : Int) < (docData.length : Int)
    · rw [if_pos hfin]
      exact pushRetain_shape _ _
        (removalFoldAux_shape docData entries (TxModel.empty, 0)
          (by intro op hop; simp [TxModel.empty] at hop))
    · rw [if_neg hfin]
      exact removalFoldAux_shape docData entries (TxModel.empty, 0)
        (by intro op hop; simp [TxModel.empty] at hop)

/-- Witness for C3 on the paragraph-then-pre document with range (1, 5). -/
theorem prepareRemoval_nonMergeable_per_node_witness :
    prepareRemoval
      [Item.elem "paragraph" none, Item.char 'a' [],
        Item.elem "/paragraph" none, Item.elem "pre" none,
        Item.char 'b' [], Item.elem "/pre" none]
      (MNode.branch "document" 6
        [MNode.leaf "paragraph" 1, MNode.leaf "pre" 1]) ⟨1, 5⟩ =
      some (removalFold
        [Item.elem "paragraph" none, Item.char 'a' [],
          Item.elem "/paragraph" none, Item.elem "pre" none,
          Item.char 'b' [], Item.elem "/pre" none]
        [⟨[0], some (0, 1), (1, 2)⟩, ⟨[1], some (0, 1), (4, 5)⟩]) ∧
    ∀ op ∈ (removalFold
        [Item.elem "paragraph" none, Item.char 'a' [],
          Item.elem "/paragraph" none, Item.elem "pre" none,
          Item.char 'b' [], Item.elem "/pre" none]
        [⟨[0], some (0, 1), (1, 2)⟩,
          ⟨[1], some (0, 1), (4, 5)⟩]).operations,
      (∃ k, op = Op.retain k) ∨ (∃ d, op = Op.remove d) :=
  prepareRemoval_nonMergeable_per_node _ _ _ _ (by decide) selectNodes_twoLeaf
    (by
      intro f l hf hl
      simp only [List.head?_cons, Option.some.injEq] at hf
      simp only [List.getLast?_cons_cons, List.getLast?_singleton,
        Option.some.injEq] at hl
      subst hf
      subst hl
      decide)


/-- **C10.** The three transaction-preparing methods never modify the
document's linear data array or its node tree: threaded through the document
state they return the state unchanged for every input (whether they produce
a transaction or crash), and hence are repeatable with identical results;
mutation of the state is performed by `commit` on the returned transaction. -/
theorem prepare_methods_frame (st : DocState) (offset : Int) (d : List Item)
    (r₁ r₂ : ESRange) (m : String) (a : Ann) :
    (prepareInsertionSt st offset d).2 = st ∧
    (prepareRemovalSt st r₁).2 = st ∧
    (prepareContentAnnSt st r₂ m a).2 = st ∧
    prepareInsertionSt (prepareInsertionSt st offset d).2 offset d =
      prepareInsertionSt st offset d ∧
    prepareRemovalSt (prepareRemovalSt st r₁).2 r₁ =
      prepareRemovalSt st r₁ ∧
    prepareContentAnnSt (prepareContentAnnSt st r₂ m a).2 r₂ m a =
      prepareContentAnnSt st r₂ m a :=
  ⟨rfl, rfl, rfl, rfl, rfl, rfl⟩


/-- The downward `undo` loop over the first `n` transactions equals rolling
back `take n` in reverse order while adding up the length differences. -/
theorem undoLoop_take (stack : List TxModel) :
    ∀ (n : Nat), n ≤ stack.length → ∀ (data : List Item) (diff : Int),
      undoLoop stack data diff n =
        (rollbackSeq data (stack.take n).reverse).map fun d =>
          (d, diff + ((stack.take n).map TxModel.lengthDifference).sum) := by
  intro n
  induction n with
  | zero => intro _ data diff; simp [undoLoop, rollbackSeq]
  | succ n ih =>
      intro hn data diff
      have hlt : n < stack.length := hn
      rw [undoLoop]
      have hget : stack.get? n = some (stack.get ⟨n, hlt⟩) :=
        List.get?_eq_get hlt
      rw [hget]
      have htake : stack.take (n + 1) = stack.take n ++ [stack.get ⟨n, hlt⟩] := by
        rw [List.take_succ, List.getElem?_eq_getElem hlt]
        rfl
      rw [htake]
      simp only [List.reverse_append, List.reverse_cons, List.reverse_nil,
        List.nil_append, List.singleton_append]
      rw [rollbackSeq]
      cases hr : rollbackData data (stack.get ⟨n, hlt⟩) with
      | none => simp [hr]
      | some d =>
          simp only [hr, Option.some_bind]
          rw [ih (le_of_lt hlt) d (diff + (stack.get ⟨n, hlt⟩).lengthDifference)]
          congr 1
          funext d'
          simp only [List.map_append, List.sum_append, List.map_cons,
            List.map_nil, List.sum_cons, List.sum_nil, Prod.mk.injEq,
            true_and]
          ring

/-- The full `undo` loop equals rolling back the whole stack in reverse
order and summing all length differences. -/
theorem undoLoop_eq (stack : List TxModel) (data : List Item) :
    undoLoop stack data 0 stack.length =
      (rollbackSeq data stack.reverse).map fun d =>
        (d, (stack.map TxModel.lengthDifference).sum) := by
  rw [undoLoop_take stack stack.length le_rfl data 0]
  simp

/-- **C5.** `undo()` first forces a breakpoint, then increments `undoIndex`;
if a breakpoint exists at `bigStack.length - undoIndex` it rolls back every
transaction in that breakpoint's stack in reverse order, sums their
`lengthDifference` values, shifts the breakpoint's saved selection by the
negative of that sum (in place, so the stored breakpoint changes too) and
selects the shifted selection; if no such breakpoint exists the document and
selection are left unchanged while `undoIndex` stays incremented. -/
theorem undo_spec (s s₁ : Surface) (ui : Nat)
    (hs₁ : s₁ = breakpointS s none) (hui : ui = s₁.undoIndex + 1) :
    ((s₁.bigStack.length : Int) - (ui : Int) < 0 →
      undoS s = some { s₁ with undoIndex := ui } ∧
      ({ s₁ with undoIndex := ui } : Surface).doc = s.doc ∧
      ({ s₁ with undoIndex := ui } : Surface).selection = s.selection) ∧
    (∀ item, 0 ≤ (s₁.bigStack.length : Int) - (ui : Int) →
      s₁.bigStack.get? ((s₁.bigStack.length : Int) - (ui : Int)).toNat =
        some item →
      undoS s = (rollbackSeq s₁.doc item.stack.reverse).map fun d =>
        selectS { s₁ with
          doc := d,
          undoIndex := ui,
          bigStack := s₁.bigStack.set
            ((s₁.bigStack.length : Int) - (ui : Int)).toNat
            ⟨item.stack, ⟨item.sel.rfrom -
                (item.stack.map TxModel.lengthDifference).sum,
              item.sel.rto -
                (item.stack.map TxModel.lengthDifference).sum⟩⟩ }
          ⟨item.sel.rfrom - (item.stack.map TxModel.lengthDifference).sum,
            item.sel.rto - (item.stack.map TxModel.lengthDifference).sum⟩) := by
  have hdoc : s₁.doc = s.doc := by
    rw [hs₁, breakpointS]
    by_cases h : s.smallStack.length > 0
    · rw [if_pos h]
    · rw [if_neg h]
  have hsel : s₁.selection = s.selection := by
    rw [hs₁, breakpointS]
    by_cases h : s.smallStack.length > 0
    · rw [if_pos h]
    · rw [if_neg h]
  constructor
  · intro hneg
    refine ⟨?_, hdoc, hsel⟩
    rw [undoS, ← hs₁, ← hui, if_pos hneg]
  · intro item hge hget
    rw [undoS, ← hs₁, ← hui, if_neg (by omega), hget]
    simp only []
    rw [undoLoop_eq]
    cases hr : rollbackSeq s₁.doc item.stack.reverse with
    | none => simp [hr]
    | some d => simp [hr]

/-- Witness for C5: undoing the insertion of 'b' at offset 2 of
`[paragraph, 'a', /paragraph]`. -/
theorem undo_spec_witness :
    undoS ⟨[Item.elem "paragraph" none, Item.char 'a' [],
        Item.char 'b' [], Item.elem "/paragraph" none], ⟨3, 3⟩,
        [⟨[Op.retain 2, Op.insert [Item.char 'b' []], Op.retain 1], 1⟩],
        [], 0⟩ =
      (rollbackSeq [Item.elem "paragraph" none, Item.char 'a' [],
          Item.char 'b' [], Item.elem "/paragraph" none]
        [⟨[Op.retain 2, Op.insert [Item.char 'b' []],
          Op.retain 1], 1⟩].reverse).map (fun d =>
        selectS { (⟨[Item.elem "paragraph" none, Item.char 'a' [],
            Item.char 'b' [], Item.elem "/paragraph" none], ⟨3, 3⟩, [],
            [⟨[⟨[Op.retain 2, Op.insert [Item.char 'b' []], Op.retain 1],
              1⟩], ⟨3, 3⟩⟩], 0⟩ : Surface) with
          doc := d,
          undoIndex := 1,
          bigStack := [⟨[⟨[Op.retain 2, Op.insert [Item.char 'b' []],
            Op.retain 1], 1⟩], ⟨2, 2⟩⟩] }
          ⟨2, 2⟩) := by
  have h := (undo_spec
    ⟨[Item.elem "paragraph" none, Item.char 'a' [],
        Item.char 'b' [], Item.elem "/paragraph" none], ⟨3, 3⟩,
        [⟨[Op.retain 2, Op.insert [Item.char 'b' []], Op.retain 1], 1⟩],
        [], 0⟩
    ⟨[Item.elem "paragraph" none, Item.char 'a' [],
        Item.char 'b' [], Item.elem "/paragraph" none], ⟨3, 3⟩, [],
        [⟨[⟨[Op.retain 2, Op.insert [Item.char 'b' []], Op.retain 1],
          1⟩], ⟨3, 3⟩⟩], 0⟩
    1 (by decide) (by decide)).2
    ⟨[⟨[Op.retain 2, Op.insert [Item.char 'b' []], Op.retain 1], 1⟩],
      ⟨3, 3⟩⟩ (by decide) (by decide)
  simpa using h

end VE
